import Mathlib

/-!
Shallow embedding of the template-placeholder detection and data-to-placeholder
mapping engine of the Chem-Doc repository (TypeScript sources under `src/`).

JavaScript strings are modelled as `List Char` (`JStr`); JavaScript runtime
values that occur in the extracted-data records are modelled by `JSVal`
(string / number / boolean / null).  Embedding decisions, noted where used:

* `String.prototype.toLowerCase` is modelled by ASCII lowercasing
  (`Char.toLower`); all texts handled by the claims are ASCII except for the
  protected symbols (≤, ≥, em-dash), which JavaScript lowercasing also leaves
  unchanged.
* Object key iteration (`Object.keys`) is modelled as insertion order; records
  are association lists with distinct keys.  The code's table lookups
  (`fieldMapping[key]`) are modelled as own-property association-list lookups.
* JavaScript numbers are restricted to integers; no claim depends on float
  arithmetic or float formatting.
-/

abbrev JStr := List Char

/-- The JavaScript `\s` / `trim()` white-space set (ECMA-262 WhiteSpace and
LineTerminator), by code point. -/
def isJsWS (c : Char) : Bool :=
  let n := c.toNat
  n = 9 || n = 10 || n = 11 || n = 12 || n = 13 || n = 32 || n = 0xa0 ||
  n = 0x1680 || (0x2000 ≤ n && n ≤ 0x200a) || n = 0x2028 || n = 0x2029 ||
  n = 0x202f || n = 0x205f || n = 0x3000 || n = 0xfeff

/-- Boolean substring test (`String.prototype.includes`). -/
def hasSub (p s : JStr) : Bool := decide (p <:+: s)

/-- `String.prototype.trim()`: drop white space from both ends. -/
def jsTrim (s : JStr) : JStr :=
  (s.dropWhile isJsWS).reverse.dropWhile isJsWS |>.reverse

/-- `toLowerCase()`, restricted to ASCII case mapping (see header note). -/
def toLowerJS (s : JStr) : JStr := s.map Char.toLower

/-- JavaScript runtime values occurring in extracted-data records. -/
inductive JSVal where
  | str (s : JStr)
  | num (n : Int)
  | bool (b : Bool)
  | null
deriving DecidableEq

/-- JavaScript truthiness of a `JSVal`. -/
def JSVal.truthy : JSVal → Bool
  | .str s => s ≠ []
  | .num n => n ≠ 0
  | .bool b => b
  | .null => false

def JSVal.isBool : JSVal → Bool
  | .bool _ => true
  | _ => false

/-- A JavaScript object used as a string-keyed record, in insertion order. -/
abbrev JObj := List (JStr × JSVal)

/-- Property read: first (unique) binding of the key. -/
def jsGet (o : JObj) (k : JStr) : Option JSVal :=
  (o.find? (fun kv => kv.1 = k)).map (·.2)

/-- Property write: updating an existing key keeps its position, a new key is
appended (JavaScript object insertion-order semantics). -/
def jsSet (o : JObj) (k : JStr) (v : JSVal) : JObj :=
  if o.any (fun kv => kv.1 = k) then
    o.map (fun kv => if kv.1 = k then (k, v) else kv)
  else o ++ [(k, v)]

/-- Truthiness of `o.k` where a missing property (`undefined`) is falsy. -/
def truthyGet (o : JObj) (k : JStr) : Bool :=
  match jsGet o k with
  | some v => v.truthy
  | none => false

/-!  ## Field Normalizer (`normalizeExtractedData`, data-extraction.tsx 18-62) -/

/-- The corruption-to-canonical mapping table of `normalizeExtractedData`
(data-extraction.tsx lines 19-31), in source order. -/
def fieldMapping : List (JStr × JStr) :=
  [ ("_appearance__white_solid_powder_".data, "appearance".data),
    ("_sodium_hyaluronate_content___95_".data, "sodium_hyaluronate_content".data),
    ("_protein___01_".data, "protein".data),
    ("_loss_on_drying___10_".data, "loss_on_drying".data),
    ("_ph__5085_".data, "ph".data),
    ("_staphylococcus_aureus__negative_".data, "staphylococcus_aureus".data),
    ("_pseudomonas_aeruginosa__negative_".data, "pseudomonas_aeruginosa".data),
    ("_heavy_metal__20_ppm_".data, "heavy_metal".data),
    ("_total_bacteria___100_cfug_".data, "total_bacteria".data),
    ("_yeast_and_molds___50_cfug_".data, "yeast_and_molds".data) ]

/-- `fieldMapping[key]` (own-property lookup; every table value is a non-empty
string, hence truthy, so the code's `if (fieldMapping[key])` test is modelled
as `isSome`). -/
def lookupMapping (k : JStr) : Option JStr :=
  (fieldMapping.find? (fun kv => kv.1 = k)).map (·.2)

def appearanceKey : JStr := "appearance".data
def molecularWeightKey : JStr := "molecular_weight".data
def mdaToken : JStr := "1.70M Da".data

/-- Stage 1 of `normalizeExtractedData`: copy keys that do not start with the
corruption sentinel (data-extraction.tsx 36-40). -/
def ndCopy (rawData : JObj) : JObj :=
  rawData.foldl
    (fun nd kv => if kv.1.head? = some '_' then nd else jsSet nd kv.1 kv.2) []

/-- Stage 2 of `normalizeExtractedData`: map corrupted field names through the
table (data-extraction.tsx 43-47). -/
def ndMap (rawData : JObj) (nd : JObj) : JObj :=
  rawData.foldl
    (fun nd kv =>
      match lookupMapping kv.1 with
      | some ck => jsSet nd ck kv.2
      | none => nd) nd

/-- Stage 3 of `normalizeExtractedData`: appearance formatting
(data-extraction.tsx 49-54). -/
def ndApp (nd : JObj) : JObj :=
  match jsGet nd appearanceKey with
  | some v =>
      if v.truthy && v.isBool then
        jsSet nd appearanceKey
          (.str (if v.truthy then "Complies".data else "Does not comply".data))
      else if v = .bool true then
        jsSet nd appearanceKey (.str "White solid powder".data)
      else nd
  | none => nd

/-- Stage 4 of `normalizeExtractedData`: backfill molecular weight from the
auxiliary OCR text (data-extraction.tsx 56-59). -/
def ndMw (nd : JObj) (ocrText : Option JStr) : JObj :=
  if (!truthyGet nd molecularWeightKey) &&
      (match ocrText with | some t => hasSub mdaToken t | none => false) then
    jsSet nd molecularWeightKey (.str mdaToken)
  else nd

/-- `normalizeExtractedData(rawData, job)` (data-extraction.tsx 18-62).
`ocrText` models `job.ocrText` (nullable, accessed with `?.`). -/
def normalizeExtractedData (rawData : JObj) (ocrText : Option JStr) : JObj :=
  ndMw (ndApp (ndMap rawData (ndCopy rawData))) ocrText

example :
    normalizeExtractedData
      [("_ph__5085_".data, .str "6.8".data),
       ("_appearance__white_solid_powder_".data, .bool true)] none =
      [("ph".data, .str "6.8".data),
       ("appearance".data, .str "Complies".data)] := by decide

/-! ### Record-operation lemmas -/

theorem mem_jsSet {o : JObj} {k : JStr} {v : JSVal} {kv : JStr × JSVal}
    (h : kv ∈ jsSet o k v) : kv = (k, v) ∨ kv ∈ o := by
  unfold jsSet at h
  split at h
  · rcases List.mem_map.mp h with ⟨kv', hkv', heq⟩
    by_cases hk : kv'.1 = k
    · rw [if_pos hk] at heq; exact Or.inl heq.symm
    · rw [if_neg hk] at heq; exact Or.inr (heq ▸ hkv')
  · rcases List.mem_append.mp h with h' | h'
    · exact Or.inr h'
    · exact Or.inl (by simpa using h')

theorem find?_map_upd (o : JObj) (k : JStr) (v : JSVal)
    (h : o.any (fun kv => kv.1 = k)) :
    (o.map (fun kv => if kv.1 = k then (k, v) else kv)).find?
      (fun kv => kv.1 = k) = some (k, v) := by
  induction o with
  | nil => simp at h
  | cons kv o ih =>
      by_cases hk : kv.1 = k
      · simp [List.find?_cons, hk]
      · have h' : o.any (fun kv => kv.1 = k) := by
          rcases List.any_eq_true.mp h with ⟨x, hx, hpx⟩
          rcases List.mem_cons.mp hx with he | hxo
          · exact absurd (by simpa [he] using hpx) hk
          · exact List.any_eq_true.mpr ⟨x, hxo, hpx⟩
        have e2 : (decide (kv.1 = k)) = false := by simpa using hk
        simp only [List.map_cons, if_neg hk, List.find?_cons, e2]
        exact ih h'

theorem jsGet_jsSet_same (o : JObj) (k : JStr) (v : JSVal) :
    jsGet (jsSet o k v) k = some v := by
  unfold jsGet jsSet
  by_cases hmem : o.any (fun kv => kv.1 = k)
  · rw [if_pos hmem, find?_map_upd o k v hmem]; rfl
  · rw [if_neg hmem, List.find?_append]
    have hnone : o.find? (fun kv => kv.1 = k) = none := by
      rw [List.find?_eq_none]
      intro kv hkv
      simpa using fun he =>
        hmem (List.any_eq_true.mpr ⟨kv, hkv, by simpa using he⟩)
    rw [hnone]
    simp [List.find?_cons_of_pos]

theorem jsGet_jsSet_ne (o : JObj) (k : JStr) (v : JSVal) (k' : JStr)
    (h : k' ≠ k) : jsGet (jsSet o k v) k' = jsGet o k' := by
  unfold jsGet jsSet
  by_cases hmem : o.any (fun kv => kv.1 = k)
  · rw [if_pos hmem]
    clear hmem
    congr 1
    induction o with
    | nil => simp
    | cons kv o ih =>
        by_cases hk : kv.1 = k
        · have h2 : ¬ (kv.1 = k') := by
            rw [hk]; exact fun he => h he.symm
          simp only [List.map_cons, if_pos hk, List.find?_cons]
          have e1 : (decide ((k, v).1 = k')) = false := by
            simp; exact fun he => h he.symm
          have e2 : (decide (kv.1 = k')) = false := by simpa using h2
          rw [e1, e2]
          exact ih
        · simp only [List.map_cons, if_neg hk, List.find?_cons]
          by_cases hk' : kv.1 = k'
          · rw [show (decide (kv.1 = k')) = true by simpa using hk']
          · rw [show (decide (kv.1 = k')) = false by simpa using hk']
            exact ih
  · rw [if_neg hmem, List.find?_append]
    have hone : List.find? (fun kv => kv.1 = k') [(k, v)] = none := by
      have : (decide ((k, v).1 = k')) = false := by
        simp; exact fun he => h he.symm
      simp only [List.find?_cons, this, List.find?_nil]
    rw [hone, Option.or_none]

theorem jsSet_keys_of_mem {o : JObj} {k : JStr} {v : JSVal}
    (h : o.any (fun kv => kv.1 = k)) :
    (jsSet o k v).map (·.1) = o.map (·.1) := by
  unfold jsSet
  rw [if_pos h, List.map_map]
  apply List.map_congr_left
  intro kv _
  by_cases hk : kv.1 = k <;> simp [hk]

theorem jsSet_keys_of_not_mem {o : JObj} {k : JStr} {v : JSVal}
    (h : ¬ o.any (fun kv => kv.1 = k)) :
    (jsSet o k v).map (·.1) = o.map (·.1) ++ [k] := by
  unfold jsSet
  rw [if_neg h, List.map_append]
  rfl

theorem nodup_keys_jsSet {o : JObj} (k : JStr) (v : JSVal)
    (h : (o.map (·.1)).Nodup) : ((jsSet o k v).map (·.1)).Nodup := by
  by_cases hmem : o.any (fun kv => kv.1 = k)
  · rw [jsSet_keys_of_mem hmem]; exact h
  · rw [jsSet_keys_of_not_mem hmem]
    have hnm : k ∉ o.map (·.1) := by
      intro hk
      rcases List.mem_map.mp hk with ⟨kv, hkv, hfst⟩
      exact hmem (List.any_eq_true.mpr ⟨kv, hkv, by simpa using hfst⟩)
    refine List.Nodup.append h (by simp) ?_
    intro a ha hb
    rw [List.mem_singleton.mp hb] at ha
    exact hnm ha

/-! ### Normalizer invariants -/

/-- All keys of the record avoid the corruption sentinel. -/
def goodKeys (o : JObj) : Prop := ∀ kv ∈ o, kv.1.head? ≠ some '_'

/-- The record's keys are pairwise distinct. -/
def nodupKeys (o : JObj) : Prop := (o.map (·.1)).Nodup

theorem foldl_inv {σ : Type} (f : JObj → σ → JObj) (P : JObj → Prop)
    (hf : ∀ acc x, P acc → P (f acc x)) :
    ∀ (l : List σ) (acc : JObj), P acc → P (l.foldl f acc) := by
  intro l
  induction l with
  | nil => intro acc h; exact h
  | cons x l ih => intro acc h; exact ih (f acc x) (hf acc x h)

theorem lookupMapping_key_underscore {k ck : JStr}
    (h : lookupMapping k = some ck) : k.head? = some '_' := by
  unfold lookupMapping at h
  rcases Option.map_eq_some'.mp h with ⟨kv, hfind, _⟩
  have hmem := List.mem_of_find?_eq_some hfind
  have hpred : kv.1 = k := by simpa using List.find?_some hfind
  have hall : ∀ e ∈ fieldMapping, e.1.head? = some '_' := by decide
  rw [← hpred]
  exact hall kv hmem

theorem lookupMapping_val_good {k ck : JStr}
    (h : lookupMapping k = some ck) : ck.head? ≠ some '_' := by
  unfold lookupMapping at h
  rcases Option.map_eq_some'.mp h with ⟨kv, hfind, hsnd⟩
  have hmem := List.mem_of_find?_eq_some hfind
  have hall : ∀ e ∈ fieldMapping, e.2.head? ≠ some '_' := by decide
  rw [← hsnd]
  exact hall kv hmem

theorem jsSet_goodKeys {o : JObj} {k : JStr} {v : JSVal}
    (ho : goodKeys o) (hk : k.head? ≠ some '_') : goodKeys (jsSet o k v) := by
  intro kv hkv
  rcases mem_jsSet hkv with he | hin
  · rw [he]; exact hk
  · exact ho kv hin

theorem ndCopy_goodKeys (X : JObj) : goodKeys (ndCopy X) := by
  unfold ndCopy
  refine foldl_inv _ goodKeys ?_ X [] (by intro kv h; simp at h)
  intro acc x hacc
  by_cases hx : x.1.head? = some '_'
  · rw [if_pos hx]; exact hacc
  · rw [if_neg hx]; exact jsSet_goodKeys hacc hx

theorem ndMap_goodKeys (X : JObj) {nd : JObj} (h : goodKeys nd) :
    goodKeys (ndMap X nd) := by
  unfold ndMap
  refine foldl_inv _ goodKeys ?_ X nd h
  intro acc x hacc
  cases hl : lookupMapping x.1 with
  | none => simpa [hl] using hacc
  | some ck =>
      simp only [hl]
      exact jsSet_goodKeys hacc (lookupMapping_val_good hl)

theorem ndApp_goodKeys {nd : JObj} (h : goodKeys nd) : goodKeys (ndApp nd) := by
  unfold ndApp
  have hk : appearanceKey.head? ≠ some '_' := by decide
  split
  · split
    · exact jsSet_goodKeys h hk
    · split
      · exact jsSet_goodKeys h hk
      · exact h
  · exact h

theorem ndMw_goodKeys {nd : JObj} (o : Option JStr) (h : goodKeys nd) :
    goodKeys (ndMw nd o) := by
  unfold ndMw
  have hk : molecularWeightKey.head? ≠ some '_' := by decide
  split
  · exact jsSet_goodKeys h hk
  · exact h

theorem normalize_goodKeys (X : JObj) (o : Option JStr) :
    goodKeys (normalizeExtractedData X o) := by
  unfold normalizeExtractedData
  exact ndMw_goodKeys o (ndApp_goodKeys (ndMap_goodKeys X (ndCopy_goodKeys X)))

theorem jsSet_nodupKeys {o : JObj} (k : JStr) (v : JSVal)
    (h : nodupKeys o) : nodupKeys (jsSet o k v) := nodup_keys_jsSet k v h

theorem ndCopy_nodupKeys (X : JObj) : nodupKeys (ndCopy X) := by
  unfold ndCopy
  refine foldl_inv _ nodupKeys ?_ X [] (by simp [nodupKeys])
  intro acc x hacc
  by_cases hx : x.1.head? = some '_'
  · rw [if_pos hx]; exact hacc
  · rw [if_neg hx]; exact jsSet_nodupKeys _ _ hacc

theorem ndMap_nodupKeys (X : JObj) {nd : JObj} (h : nodupKeys nd) :
    nodupKeys (ndMap X nd) := by
  unfold ndMap
  refine foldl_inv _ nodupKeys ?_ X nd h
  intro acc x hacc
  cases hl : lookupMapping x.1 with
  | none => simpa [hl] using hacc
  | some ck => simp only [hl]; exact jsSet_nodupKeys _ _ hacc

theorem ndApp_nodupKeys {nd : JObj} (h : nodupKeys nd) :
    nodupKeys (ndApp nd) := by
  unfold ndApp
  split
  · split
    · exact jsSet_nodupKeys _ _ h
    · split
      · exact jsSet_nodupKeys _ _ h
      · exact h
  · exact h

theorem ndMw_nodupKeys {nd : JObj} (o : Option JStr) (h : nodupKeys nd) :
    nodupKeys (ndMw nd o) := by
  unfold ndMw
  split
  · exact jsSet_nodupKeys _ _ h
  · exact h

theorem normalize_nodupKeys (X : JObj) (o : Option JStr) :
    nodupKeys (normalizeExtractedData X o) := by
  unfold normalizeExtractedData
  exact ndMw_nodupKeys o (ndApp_nodupKeys (ndMap_nodupKeys X (ndCopy_nodupKeys X)))

/-! ### Second-pass no-op lemmas for idempotence -/

theorem jsSet_append_fresh (acc : JObj) (kv : JStr × JSVal)
    (h : ¬ acc.any (fun kv' => kv'.1 = kv.1)) :
    jsSet acc kv.1 kv.2 = acc ++ [kv] := by
  unfold jsSet
  rw [if_neg h]

theorem ndCopy_foldl_app :
    ∀ (Y acc : JObj), goodKeys Y → nodupKeys Y →
      (∀ kv ∈ Y, ¬ acc.any (fun kv' => kv'.1 = kv.1)) →
      Y.foldl
        (fun nd kv => if kv.1.head? = some '_' then nd else jsSet nd kv.1 kv.2)
        acc = acc ++ Y := by
  intro Y
  induction Y with
  | nil => intro acc _ _ _; simp
  | cons kv Y ih =>
      intro acc hgood hnodup hfresh
      have hhd : ¬ kv.1.head? = some '_' := hgood kv (by simp)
      rw [List.foldl_cons, if_neg hhd,
        jsSet_append_fresh acc kv (hfresh kv (by simp))]
      have hcons := hnodup
      unfold nodupKeys at hcons
      rw [List.map_cons] at hcons
      have hknotin : kv.1 ∉ Y.map (·.1) := (List.nodup_cons.mp hcons).1
      have hnodup' : nodupKeys Y := (List.nodup_cons.mp hcons).2
      have hfresh' : ∀ kv2 ∈ Y, ¬ (acc ++ [kv]).any (fun kv' => kv'.1 = kv2.1) := by
        intro kv2 hkv2 hany
        rcases List.any_eq_true.mp hany with ⟨x, hx, hpx⟩
        rcases List.mem_append.mp hx with hxa | hxk
        · exact hfresh kv2 (by simp [hkv2])
            (List.any_eq_true.mpr ⟨x, hxa, hpx⟩)
        · have hxe : x = kv := by simpa using hxk
          have : kv.1 = kv2.1 := by simpa [hxe] using hpx
          exact hknotin (this ▸ List.mem_map.mpr ⟨kv2, hkv2, rfl⟩)
      rw [ih (acc ++ [kv]) (fun kv2 h2 => hgood kv2 (by simp [h2])) hnodup'
        hfresh']
      simp

theorem ndCopy_self (Y : JObj) (hgood : goodKeys Y) (hnodup : nodupKeys Y) :
    ndCopy Y = Y := by
  unfold ndCopy
  rw [ndCopy_foldl_app Y [] hgood hnodup (by intro kv _; simp)]
  simp

theorem ndMap_no_op (Y : JObj) (hgood : goodKeys Y) :
    ∀ nd, ndMap Y nd = nd := by
  induction Y with
  | nil => intro nd; rfl
  | cons kv Y ih =>
      intro nd
      have hhd : kv.1.head? ≠ some '_' := hgood kv (by simp)
      have hl : lookupMapping kv.1 = none := by
        cases h : lookupMapping kv.1 with
        | none => rfl
        | some ck => exact absurd (lookupMapping_key_underscore h) hhd
      unfold ndMap
      rw [List.foldl_cons]
      simp only [hl]
      exact ih (fun kv2 h2 => hgood kv2 (by simp [h2])) nd

/-- The appearance value left behind by `ndApp` never re-triggers either
formatting branch. -/
def stableApp : Option JSVal → Prop
  | some v => (v.truthy && v.isBool) = false ∧ v ≠ .bool true
  | none => True

theorem ndApp_stable (nd : JObj) : stableApp (jsGet (ndApp nd) appearanceKey) := by
  unfold ndApp
  cases hg : jsGet nd appearanceKey with
  | none => simp [hg, stableApp]
  | some v =>
      simp only [hg]
      by_cases c1 : (v.truthy && v.isBool) = true
      · rw [if_pos c1, jsGet_jsSet_same]
        constructor <;> simp [JSVal.truthy, JSVal.isBool]
      · rw [if_neg c1]
        by_cases c2 : v = .bool true
        · exfalso
          rw [c2] at c1
          simp [JSVal.truthy, JSVal.isBool] at c1
        · rw [if_neg c2, hg]
          exact ⟨by simpa using c1, c2⟩

theorem ndApp_of_stable (nd : JObj)
    (h : stableApp (jsGet nd appearanceKey)) : ndApp nd = nd := by
  unfold ndApp
  cases hg : jsGet nd appearanceKey with
  | none => rfl
  | some v =>
      rw [hg] at h
      rcases h with ⟨h1, h2⟩
      simp only [h1]
      rw [if_neg (by simp), if_neg h2]

theorem ndMw_get_other (nd : JObj) (o : Option JStr) (k : JStr)
    (h : k ≠ molecularWeightKey) : jsGet (ndMw nd o) k = jsGet nd k := by
  unfold ndMw
  split
  · exact jsGet_jsSet_ne nd molecularWeightKey _ k h
  · rfl

theorem ndMw_idem (nd : JObj) (o : Option JStr) :
    ndMw (ndMw nd o) o = ndMw nd o := by
  by_cases c : ((!truthyGet nd molecularWeightKey) &&
      (match o with | some t => hasSub mdaToken t | none => false)) = true
  · have h1 : ndMw nd o = jsSet nd molecularWeightKey (.str mdaToken) := by
      unfold ndMw; rw [if_pos c]
    have h2 : truthyGet (ndMw nd o) molecularWeightKey = true := by
      unfold truthyGet
      rw [h1, jsGet_jsSet_same]
      simp [JSVal.truthy, mdaToken]
    set m := ndMw nd o with hm
    unfold ndMw
    rw [h2]
    simp
  · have h1 : ndMw nd o = nd := by unfold ndMw; rw [if_neg c]
    rw [h1, h1]

theorem normalize_self (Y : JObj) (o : Option JStr)
    (hgood : goodKeys Y) (hnodup : nodupKeys Y)
    (happ : stableApp (jsGet Y appearanceKey))
    (hmw : ndMw Y o = Y) :
    normalizeExtractedData Y o = Y := by
  unfold normalizeExtractedData
  rw [ndCopy_self Y hgood hnodup, ndMap_no_op Y hgood, ndApp_of_stable Y happ,
    hmw]

/-- Claim C1: the Field Normalizer is idempotent — for every raw extracted
field set `X` and any fixed auxiliary OCR text, applying
`normalizeExtractedData` twice yields the same record as applying it once. -/
theorem c1_normalizer_idempotent (X : JObj) (o : Option JStr) :
    normalizeExtractedData (normalizeExtractedData X o) o =
      normalizeExtractedData X o := by
  have e : jsGet (normalizeExtractedData X o) appearanceKey =
      jsGet (ndApp (ndMap X (ndCopy X))) appearanceKey := by
    unfold normalizeExtractedData
    exact ndMw_get_other _ o appearanceKey (by decide)
  have happ : stableApp (jsGet (normalizeExtractedData X o) appearanceKey) := by
    rw [e]; exact ndApp_stable _
  have hmw : ndMw (normalizeExtractedData X o) o = normalizeExtractedData X o := by
    unfold normalizeExtractedData
    exact ndMw_idem _ o
  exact normalize_self _ o (normalize_goodKeys X o) (normalize_nodupKeys X o)
    happ hmw

/-- Claim C3 (divergence witness): on the Scenario B input the code yields
`appearance = "Complies"` — the `else if (appearance === true)` branch that
would yield `"White solid powder"` is unreachable, being shadowed by the
`typeof === 'boolean'` branch. -/
theorem c3_scenarioB_eval :
    normalizeExtractedData
        [("_ph__5085_".data, .str "6.8".data),
         ("_appearance__white_solid_powder_".data, .bool true)] none =
      [("ph".data, .str "6.8".data),
       ("appearance".data, .str "Complies".data)] ∧
    jsGet
        (normalizeExtractedData
          [("_ph__5085_".data, .str "6.8".data),
           ("_appearance__white_solid_powder_".data, .bool true)] none)
        appearanceKey ≠ some (.str "White solid powder".data) := by
  constructor
  · decide
  · decide

/-- Claim C5 (counterexample): the corruption-to-canonical table does not have
sixteen entries. -/
theorem c5_counterexample : fieldMapping.length ≠ 16 := by decide

/-- Claim C5 (amended): the mapping table has ten entries, and every key that
starts with the corruption-sentinel underscore and has no entry in the table is
absent from the normalized output. -/
theorem c5_table_and_dropping :
    fieldMapping.length = 10 ∧
    ∀ (X : JObj) (o : Option JStr) (k : JStr),
      k.head? = some '_' → lookupMapping k = none →
      jsGet (normalizeExtractedData X o) k = none := by
  refine ⟨by decide, ?_⟩
  intro X o k hk _hnone
  cases h : jsGet (normalizeExtractedData X o) k with
  | none => rfl
  | some v =>
      exfalso
      unfold jsGet at h
      rcases Option.map_eq_some'.mp h with ⟨kv, hfind, _⟩
      have hpred : kv.1 = k := by simpa using List.find?_some hfind
      have hmem := List.mem_of_find?_eq_some hfind
      have := normalize_goodKeys X o kv hmem
      rw [hpred] at this
      exact this hk

/-- Claim C5 witness: a concrete unmapped corrupted key is dropped. -/
theorem c5_witness :
    ("_zz".data : JStr).head? = some '_' ∧ lookupMapping "_zz".data = none ∧
    jsGet
      (normalizeExtractedData [("_zz".data, .str "1".data)] none)
      "_zz".data = none :=
  ⟨by decide, by decide,
    c5_table_and_dropping.2 [("_zz".data, .str "1".data)] none "_zz".data
      (by decide) (by decide)⟩

/-! ## Context-Match Scorer (`calculateMatchScore`, template-preview.tsx 45-103)

The keyword rules' regular expressions all have the shape
`word(.*word)*( | word(.*word)*)*` plus one optional trailing `s?`; they are
embedded as alternations of literal-word chains where `.*` may consume any
characters except JavaScript line terminators.  `pattern.test(lowerContext)`
with the `/i` flag on an already-lowercased ASCII context is equivalent to
case-sensitive search of the lowercase literals. -/

/-- JavaScript line terminators (which `.` does not match). -/
def isLineTerm (c : Char) : Bool :=
  let n := c.toNat
  n = 10 || n = 13 || n = 0x2028 || n = 0x2029

def dotOk (c : Char) : Bool := !isLineTerm c

/-- Matches `w₁ gap w₂ gap … wₙ` at the head of `s` (each gap a run of
characters satisfying `gapOk`); fuelled for structural recursion. -/
def chainGapF (gapOk : Char → Bool) : Nat → List JStr → JStr → Bool
  | _, [], _ => true
  | 0, _ :: _, _ => false
  | f+1, w :: rest, s =>
      (decide (w <+: s) && chainGapF gapOk f rest (s.drop w.length)) ||
      (match s with
       | [] => false
       | c :: s' => gapOk c && chainGapF gapOk f (w :: rest) s')

/-- Regex `test` (search) of a chain `w₁.*w₂.*…` against `s`. -/
def searchChainF (gapOk : Char → Bool) : Nat → List JStr → JStr → Bool
  | _, [], _ => true
  | 0, _ :: _, _ => false
  | f+1, w :: rest, s =>
      (decide (w <+: s) &&
        chainGapF gapOk (s.length + rest.length + 1) rest (s.drop w.length)) ||
      (match s with
       | [] => false
       | _ :: s' => searchChainF gapOk f (w :: rest) s')

def chainSearch (gapOk : Char → Bool) (ws : List JStr) (s : JStr) : Bool :=
  searchChainF gapOk (s.length + ws.length + 1) ws s

/-- Alternation: the pattern matches if any alternative chain matches. -/
def patTest (gapOk : Char → Bool) (alts : List (List JStr)) (s : JStr) : Bool :=
  alts.any (fun ws => chainSearch gapOk ws s)

/-- The `keywords` rule table of `calculateMatchScore`
(template-preview.tsx 51-70): regex (as chain alternation) and key list. -/
def keywordRules : List (List (List JStr) × List JStr) :=
  [ ([["batch".data, "number".data], ["lot".data, "number".data]],
     ["batch_number".data, "batch".data, "lot".data]),
    ([["manufacturing".data, "date".data], ["production".data, "date".data]],
     ["manufacturing_date".data, "production_date".data]),
    ([["expiry".data, "date".data], ["expiration".data, "date".data],
      ["retest".data, "date".data]],
     ["expiry_date".data, "expiration_date".data]),
    ([["product".data, "name".data]], ["product_name".data]),
    ([["inci".data, "name".data]], ["inci_name".data]),
    ([["appearance".data]], ["appearance".data]),
    ([["molecular".data, "weight".data]], ["molecular_weight".data]),
    ([["sodium".data, "hyaluronate".data, "content".data]],
     ["sodium_hyaluronate_content".data]),
    ([["protein".data]], ["protein".data]),
    ([["loss".data, "on".data, "drying".data]], ["loss_on_drying".data]),
    ([["ph".data]], ["ph".data]),
    ([["staphylococcus".data, "aureus".data]], ["staphylococcus_aureus".data]),
    ([["pseudomonas".data, "aeruginosa".data]],
     ["pseudomonas_aeruginosa".data]),
    ([["heavy".data, "metal".data]], ["heavy_metal".data]),
    ([["total".data, "bacteria".data]], ["total_bacteria".data]),
    ([["yeast".data, "and".data, "molds".data],
      ["yeast".data, "and".data, "mold".data]],
     ["yeast_and_molds".data]),
    ([["issued".data, "date".data], ["issue".data, "date".data]],
     ["issued_date".data]),
    ([["test".data, "result".data], ["conclusion".data]],
     ["test_result".data]) ]

def JSVal.isNum : JSVal → Bool
  | .num _ => true
  | _ => false

/-- `value.includes('Date')` on string values, `false` otherwise. -/
def hasDateToken : JSVal → Bool
  | .str sv => hasSub "Date".data sv
  | _ => false

/-- `String.prototype.split(sep)` for a one-character separator (empty
segments preserved, as in JavaScript). -/
def splitOnChar (sep : Char) : JStr → List JStr
  | [] => [[]]
  | c :: cs =>
      match splitOnChar sep cs with
      | [] => [[c]]
      | h :: t => if c = sep then [] :: h :: t else (c :: h) :: t

/-- `fieldKey.replace(/_/g, ' ').toLowerCase()`. -/
def cleanKeyOf (fieldKey : JStr) : JStr :=
  toLowerJS (fieldKey.map (fun c => if c = '_' then ' ' else c))

/-- `calculateMatchScore(context, fieldKey, fieldValue)`
(template-preview.tsx 45-103), transcribed with its accumulating `score`. -/
def calculateMatchScore (context fieldKey : JStr) (fieldValue : JSVal) : Nat :=
  let lowerContext := toLowerJS context
  let cleanKey := cleanKeyOf fieldKey
  -- Direct keyword matching: +100 per (rule, key) with pattern and key match.
  let s1 := keywordRules.foldl
    (fun acc r =>
      if patTest dotOk r.1 lowerContext then
        r.2.foldl
          (fun acc2 key =>
            if hasSub key cleanKey || hasSub key fieldKey then acc2 + 100
            else acc2) acc
      else acc) 0
  -- +20 per cleaned-key token of length > 2 found in the context.
  let s2 := (splitOnChar ' ' cleanKey).foldl
    (fun acc w => if 2 < w.length && hasSub w lowerContext then acc + 20
      else acc) s1
  -- Value-type components.
  let s3 := if fieldValue.isBool && hasSub "negative".data lowerContext
    then s2 + 15 else s2
  let s4 := if fieldValue.isNum &&
      lowerContext.any (fun c => c.isDigit || c = '%')
    then s3 + 10 else s3
  if hasDateToken fieldValue && hasSub "date".data lowerContext
  then s4 + 25 else s4

example :
    calculateMatchScore "batch number".data "batch_number".data
      (.str "v".data) = 240 := by decide

/-! ## Placeholder mapper and preview Filler
(`intelligentlyMapPlaceholders` / `renderTemplateContent`,
template-preview.tsx 11-42 and 149-174).
Literal braces are written with `\x7b` / `\x7d` escapes. -/

/-- The bare marker `{}`. -/
def markerLit : JStr := ['\x7b', '\x7d']

/-- `templateHtml.split(/\{\}/)`. -/
def splitMarker : JStr → List JStr
  | [] => [[]]
  | '\x7b' :: '\x7d' :: rest => [] :: splitMarker rest
  | c :: cs =>
      match splitMarker cs with
      | [] => [[c]]
      | h :: t => (c :: h) :: t

/-- `parts[i].slice(-200)`: the last 200 characters. -/
def sliceLast (n : Nat) (s : JStr) : JStr := s.drop (s.length - n)

/-- The per-marker context windows (template-preview.tsx 14-21). -/
def slotContexts (templateHtml : JStr) : List JStr :=
  let parts := splitMarker templateHtml
  (parts.zip parts.tail).map (fun pq => sliceLast 200 pq.1 ++ pq.2.take 200)

/-- The best-match fold for one context (template-preview.tsx 26-38):
strictly greater score replaces; initial best is `null` with score 0. -/
def bestMatchFor (context : JStr) (data : JObj) : JSVal :=
  (data.foldl
    (fun acc kv =>
      if calculateMatchScore context kv.1 kv.2 > acc.1
      then (calculateMatchScore context kv.1 kv.2, kv.2) else acc)
    ((0 : Nat), JSVal.null)).2

/-- `intelligentlyMapPlaceholders(templateHtml, extractedData)`
(template-preview.tsx 11-42). -/
def intelligentlyMapPlaceholders (templateHtml : JStr) (data : JObj) :
    List JSVal :=
  (slotContexts templateHtml).map (fun c => bestMatchFor c data)

def spanOpenFilled : JStr := "<span class=\"preview-highlight-filled\">".data
def spanCloseTag : JStr := "</span>".data
def emptySpan : JStr := "<span class=\"preview-highlight-empty\">—</span>".data

/-- Format one mapped value (template-preview.tsx 156-171): null/empty string
to the highlighted empty marker, booleans to Complies/Non-compliant, numbers
and strings via `toString`, wrapped in the filled-highlight span. -/
def formatValue : JSVal → JStr
  | .null => emptySpan
  | .str [] => emptySpan
  | .bool b =>
      spanOpenFilled ++ (if b then "Complies".data else "Non-compliant".data)
        ++ spanCloseTag
  | .num n => spanOpenFilled ++ (toString n).data ++ spanCloseTag
  | .str s => spanOpenFilled ++ s ++ spanCloseTag

/-- The replacement for the marker at running index `i`
(template-preview.tsx 151-174): past the end of the mapped values the empty
marker is emitted. -/
def fillRep (vals : List JSVal) (i : Nat) : JStr :=
  if i < vals.length then formatValue (vals.getD i JSVal.null) else emptySpan

/-- `filledHtml.replace(/\{\}/g, callback)` with the sequential
`placeholderIndex` (template-preview.tsx 150-174): replacements are spliced
in place of each marker, left to right, and are not rescanned. -/
def fillGo (vals : List JSVal) : Nat → JStr → JStr
  | _, [] => []
  | i, '\x7b' :: '\x7d' :: rest => fillRep vals i ++ fillGo vals (i+1) rest
  | i, c :: cs => c :: fillGo vals i cs

/-- The marker-replacement pass of `renderTemplateContent`
(template-preview.tsx 142-174). -/
def renderFillMarkers (templateHtml : JStr) (data : JObj) : JStr :=
  fillGo (intelligentlyMapPlaceholders templateHtml data) 0 templateHtml

/-- Number of `{}` markers in the text. -/
def countMarkers : JStr → Nat
  | [] => 0
  | '\x7b' :: '\x7d' :: rest => countMarkers rest + 1
  | _ :: cs => countMarkers cs

example :
    renderFillMarkers "ph \x7b\x7d".data [("ph".data, .str "6.8".data)] =
      ("ph <span class=\"preview-highlight-filled\">6.8</span>").data := by
  decide

/-! ### Scorer choice policy (Claim C7) -/

/-- The best score the extracted set reaches on a context (0 when empty). -/
def maxScore (context : JStr) (data : JObj) : Nat :=
  data.foldl (fun a kv => max a (calculateMatchScore context kv.1 kv.2)) 0

theorem foldl_max_init_le (f : JStr × JSVal → Nat) :
    ∀ (l : JObj) (a : Nat), a ≤ l.foldl (fun x kv => max x (f kv)) a := by
  intro l
  induction l with
  | nil => intro a; simp
  | cons kv l ih =>
      intro a
      rw [List.foldl_cons]
      exact le_trans (Nat.le_max_left a (f kv)) (ih (max a (f kv)))

theorem foldl_max_mem_le (f : JStr × JSVal → Nat) :
    ∀ (l : JObj) (a : Nat) (kv : JStr × JSVal), kv ∈ l →
      f kv ≤ l.foldl (fun x kv => max x (f kv)) a := by
  intro l
  induction l with
  | nil => intro a kv h; simp at h
  | cons kv0 l ih =>
      intro a kv h
      rw [List.foldl_cons]
      rcases List.mem_cons.mp h with he | hm
      · subst he
        exact le_trans (Nat.le_max_right a (f kv)) (foldl_max_init_le f l _)
      · exact ih _ kv hm

theorem bestFold_stay (f : JStr × JSVal → Nat) :
    ∀ (l : JObj) (b : Nat) (m : JSVal), (∀ kv ∈ l, f kv ≤ b) →
      l.foldl (fun acc kv => if f kv > acc.1 then (f kv, kv.2) else acc) (b, m)
        = (b, m) := by
  intro l
  induction l with
  | nil => intro b m _; rfl
  | cons kv l ih =>
      intro b m hb
      rw [List.foldl_cons]
      have : ¬ f kv > (b, m).1 := by
        simpa using hb kv (by simp)
      rw [if_neg this]
      exact ih b m (fun kv' h' => hb kv' (by simp [h']))

theorem bestFold_find (f : JStr × JSVal → Nat) :
    ∀ (l : JObj) (b : Nat) (m : JSVal),
      b < l.foldl (fun a kv => max a (f kv)) b →
      ∃ kv, l.find?
          (fun kv => f kv = l.foldl (fun a kv => max a (f kv)) b) = some kv ∧
        (l.foldl (fun acc kv => if f kv > acc.1 then (f kv, kv.2) else acc)
          (b, m)).2 = kv.2 := by
  intro l
  induction l with
  | nil => intro b m h; simp at h
  | cons kv l ih =>
      intro b m hb
      by_cases hgt : f kv > b
      · have hmax : max b (f kv) = f kv := Nat.max_eq_right (le_of_lt hgt)
        by_cases heq : f kv = (kv :: l).foldl (fun a kv => max a (f kv)) b
        · refine ⟨kv, ?_, ?_⟩
          · exact List.find?_cons_of_pos _ (by simpa using heq)
          · rw [List.foldl_cons, if_pos (by simpa using hgt)]
            have hbound : ∀ kv' ∈ l, f kv' ≤ f kv := by
              intro kv' h'
              have h1 := foldl_max_mem_le f l (max b (f kv)) kv' h'
              have heq' := heq
              rw [List.foldl_cons] at heq'
              rw [← heq'] at h1
              exact h1
            rw [bestFold_stay f l (f kv) kv.2 hbound]
        · have hM : (kv :: l).foldl (fun a kv => max a (f kv)) b
              = l.foldl (fun a kv => max a (f kv)) (f kv) := by
            rw [List.foldl_cons, hmax]
          have hlt : f kv < l.foldl (fun a kv => max a (f kv)) (f kv) := by
            have hge := foldl_max_init_le f l (f kv)
            have hne' : f kv ≠ l.foldl (fun a kv => max a (f kv)) (f kv) :=
              fun h => heq (by rw [hM]; exact h)
            omega
          rcases ih (f kv) kv.2 hlt with ⟨kv', hfind, hfold⟩
          refine ⟨kv', ?_, ?_⟩
          · rw [List.find?_cons_of_neg _ (by simpa using heq)]
            rw [hM]
            exact hfind
          · rw [List.foldl_cons, if_pos (by simpa using hgt)]
            exact hfold
      · have hle : f kv ≤ b := Nat.le_of_not_lt hgt
        have hmax : max b (f kv) = b := Nat.max_eq_left hle
        have hM : (kv :: l).foldl (fun a kv => max a (f kv)) b
            = l.foldl (fun a kv => max a (f kv)) b := by
          rw [List.foldl_cons, hmax]
        have hne : ¬ f kv = (kv :: l).foldl (fun a kv => max a (f kv)) b := by
          intro he
          rw [hM] at he
          have hb' := hb
          rw [hM, ← he] at hb'
          omega
        rcases ih b m (by rwa [hM] at hb) with ⟨kv', hfind, hfold⟩
        refine ⟨kv', ?_, ?_⟩
        · rw [List.find?_cons_of_neg _ (by simpa using hne), hM]
          exact hfind
        · rw [List.foldl_cons, if_neg (by simpa using hgt)]
          exact hfold

/-- Claim C7: for every slot context and extracted field set, the code picks
a field of strictly highest score — on ties the first field in insertion
order — and a best score of 0 leaves the slot unmatched (`null`, rendered as
the highlighted empty marker). -/
theorem c7_tiebreak_and_unmatched (context : JStr) (data : JObj) :
    (maxScore context data = 0 →
      bestMatchFor context data = JSVal.null ∧
      formatValue (bestMatchFor context data) = emptySpan) ∧
    (0 < maxScore context data →
      ∃ kv, data.find?
          (fun kv =>
            calculateMatchScore context kv.1 kv.2 = maxScore context data)
          = some kv ∧ bestMatchFor context data = kv.2) := by
  constructor
  · intro h0
    have hbound : ∀ kv ∈ data,
        calculateMatchScore context kv.1 kv.2 ≤ 0 := by
      intro kv h
      have := foldl_max_mem_le
        (fun kv => calculateMatchScore context kv.1 kv.2) data 0 kv h
      rw [show data.foldl
          (fun x kv => max x (calculateMatchScore context kv.1 kv.2)) 0
          = maxScore context data from rfl, h0] at this
      exact this
    have := bestFold_stay
      (fun kv => calculateMatchScore context kv.1 kv.2) data 0 JSVal.null
      hbound
    have hbm : bestMatchFor context data = JSVal.null := by
      unfold bestMatchFor
      rw [this]
    exact ⟨hbm, by rw [hbm]; rfl⟩
  · intro hpos
    have := bestFold_find
      (fun kv => calculateMatchScore context kv.1 kv.2) data 0 JSVal.null hpos
    rcases this with ⟨kv, hfind, hfold⟩
    exact ⟨kv, hfind, hfold⟩

/-- Claim C7 witness: a concrete positive-score choice. -/
theorem c7_witness :
    0 < maxScore "ph ".data [("ph".data, JSVal.str "6.8".data)] ∧
    ∃ kv, ([("ph".data, JSVal.str "6.8".data)] : JObj).find?
        (fun kv => calculateMatchScore "ph ".data kv.1 kv.2 =
          maxScore "ph ".data [("ph".data, JSVal.str "6.8".data)])
        = some kv ∧
      bestMatchFor "ph ".data [("ph".data, JSVal.str "6.8".data)] = kv.2 :=
  ⟨by decide,
    (c7_tiebreak_and_unmatched "ph ".data
      [("ph".data, JSVal.str "6.8".data)]).2 (by decide)⟩

/-! ### Scorer decomposition (Claim C8) -/

theorem foldl_add_count {α : Type} (p : α → Bool) (n : Nat) :
    ∀ (l : List α) (a : Nat),
      l.foldl (fun acc x => if p x then acc + n else acc) a
        = a + n * l.countP p := by
  intro l
  induction l with
  | nil => intro a; simp
  | cons x l ih =>
      intro a
      rw [List.foldl_cons, List.countP_cons]
      by_cases hp : p x = true
      · rw [if_pos hp, ih, hp]
        simp only [if_true]
        rw [Nat.mul_succ]
        omega
      · rw [if_neg hp, ih]
        rw [Bool.not_eq_true] at hp
        rw [hp]
        simp

theorem rulesFold_eq (LC CK fieldKey : JStr) :
    ∀ (rules : List (List (List JStr) × List JStr)) (a : Nat),
      rules.foldl
        (fun acc r =>
          if patTest dotOk r.1 LC then
            r.2.foldl
              (fun acc2 key =>
                if hasSub key CK || hasSub key fieldKey then acc2 + 100
                else acc2) acc
          else acc) a
      = a + (rules.map
          (fun r =>
            if patTest dotOk r.1 LC then
              100 * r.2.countP
                (fun key => hasSub key CK || hasSub key fieldKey)
            else 0)).sum := by
  intro rules
  induction rules with
  | nil => intro a; simp
  | cons r rules ih =>
      intro a
      rw [List.foldl_cons, List.map_cons, List.sum_cons]
      by_cases hp : patTest dotOk r.1 LC = true
      · rw [if_pos hp, if_pos hp,
          foldl_add_count (fun key => hasSub key CK || hasSub key fieldKey)
            100 r.2 a, ih]
        omega
      · rw [if_neg hp, if_neg hp, ih]
        omega

theorem ite_add_form (b : Bool) (x n : Nat) :
    (if b then x + n else x) = x + (if b then n else 0) := by
  cases b <;> simp

/-- The Scorer's score as the claim describes it after correction:
+100 per (rule, key) pair — i.e. per key of a matching rule's key set that
matches the field name — plus the token / value-type components. -/
def amendedScore (context fieldKey : JStr) (fieldValue : JSVal) : Nat :=
  let lowerContext := toLowerJS context
  let cleanKey := cleanKeyOf fieldKey
  (keywordRules.map
    (fun r =>
      if patTest dotOk r.1 lowerContext then
        100 * r.2.countP
          (fun key => hasSub key cleanKey || hasSub key fieldKey)
      else 0)).sum
  + 20 * (splitOnChar ' ' cleanKey).countP
      (fun w => 2 < w.length && hasSub w lowerContext)
  + (if fieldValue.isBool && hasSub "negative".data lowerContext then 15
     else 0)
  + (if fieldValue.isNum && lowerContext.any (fun c => c.isDigit || c = '%')
     then 10 else 0)
  + (if hasDateToken fieldValue && hasSub "date".data lowerContext then 25
     else 0)

/-- The score as Claim C8 literally states it: +100 once per rule whose
pattern matches and whose key set has a matching key (not per matching key).
Written from the claim's words for comparison with the code's scorer. -/
def perRuleScore (context fieldKey : JStr) (fieldValue : JSVal) : Nat :=
  let lowerContext := toLowerJS context
  let cleanKey := cleanKeyOf fieldKey
  (keywordRules.map
    (fun r =>
      if patTest dotOk r.1 lowerContext &&
          r.2.any (fun key => hasSub key cleanKey || hasSub key fieldKey)
      then 100 else 0)).sum
  + 20 * (splitOnChar ' ' cleanKey).countP
      (fun w => 2 < w.length && hasSub w lowerContext)
  + (if fieldValue.isBool && hasSub "negative".data lowerContext then 15
     else 0)
  + (if fieldValue.isNum && lowerContext.any (fun c => c.isDigit || c = '%')
     then 10 else 0)
  + (if hasDateToken fieldValue && hasSub "date".data lowerContext then 25
     else 0)

/-- Claim C8 (counterexample): on context "batch number" and field
`batch_number`, the code scores 240 (two +100 key matches inside one rule plus
two +20 tokens) while the claim's per-rule formula gives 140. -/
theorem c8_counterexample :
    calculateMatchScore "batch number".data "batch_number".data
        (.str "v".data) = 240 ∧
    perRuleScore "batch number".data "batch_number".data
        (.str "v".data) = 140 ∧
    (240 : Nat) ≠ 140 := by
  refine ⟨by decide, by decide, by decide⟩

/-- Claim C8 (amended): the score is exactly the non-negative sum of +100 per
(rule, key) pair with a pattern and key match, +20 per long cleaned-key token
in the context, +15 for boolean values with a negative keyword, +10 for
numeric values with digits or percent in context, and +25 for date-like
string values with a date keyword. -/
theorem c8_score_decomposition (context fieldKey : JStr) (fieldValue : JSVal) :
    calculateMatchScore context fieldKey fieldValue
      = amendedScore context fieldKey fieldValue := by
  simp only [calculateMatchScore, amendedScore]
  rw [rulesFold_eq (toLowerJS context) (cleanKeyOf fieldKey) fieldKey
    keywordRules 0]
  rw [foldl_add_count
    (fun w => 2 < w.length && hasSub w (toLowerJS context)) 20
    (splitOnChar ' ' (cleanKeyOf fieldKey))]
  rw [ite_add_form, ite_add_form, ite_add_form]
  omega

/-! ### Preview Filler invariants (Claims C10 and C2) -/

theorem isSub_cons {x l : JStr} (c : Char) (h : x <:+: l) : x <:+: c :: l := by
  rcases h with ⟨u, v, huv⟩
  exact ⟨c :: u, v, by rw [List.cons_append, List.cons_append, huv]⟩

theorem isSub_app_left {x b : JStr} (a : JStr) (h : x <:+: b) :
    x <:+: a ++ b := by
  rcases h with ⟨u, v, huv⟩
  exact ⟨a ++ u, v, by rw [← huv]; simp [List.append_assoc]⟩

theorem isSub_app_right {x a : JStr} (b : JStr) (h : x <:+: a) :
    x <:+: a ++ b := by
  rcases h with ⟨u, v, huv⟩
  exact ⟨u, v ++ b, by rw [← huv]; simp [List.append_assoc]⟩

theorem sub_cons_cases {x : JStr} {c : Char} {s : JStr} (h : x <:+: c :: s) :
    x <+: c :: s ∨ x <:+: s := by
  rcases h with ⟨u, v, huv⟩
  cases u with
  | nil => exact Or.inl ⟨v, by simpa using huv⟩
  | cons a u =>
      refine Or.inr ⟨u, v, ?_⟩
      have ht := congrArg List.tail huv
      simpa using ht

/-- Appending strings that are free of the bare marker cannot create one,
unless the seam is `{` against `}`. -/
theorem markerFree_append : ∀ (a b : JStr),
    ¬ markerLit <:+: a → ¬ markerLit <:+: b →
    (a.getLast? = some '\x7b' → b.head? ≠ some '\x7d') →
    ¬ markerLit <:+: (a ++ b) := by
  intro a
  induction a with
  | nil =>
      intro b _ hb _
      simpa using hb
  | cons c a ih =>
      intro b ha hb hseam h
      rw [List.cons_append] at h
      rcases sub_cons_cases h with hpre | hsub
      · rcases hpre with ⟨w, hw⟩
        have hc : c = '\x7b' := by
          have hh := congrArg List.head? hw
          simp [markerLit] at hh
          exact hh.symm
        have ht : ('\x7d' :: w : JStr) = a ++ b := by
          have := congrArg List.tail hw
          simpa [markerLit] using this
        cases a with
        | nil =>
            have hbb : b = '\x7d' :: w := by simpa using ht.symm
            exact hseam (by simp [hc]) (by rw [hbb]; simp)
        | cons d a' =>
            have hd : d = '\x7d' := by
              have hh := congrArg List.head? ht
              simp at hh
              exact hh.symm
            exact ha ⟨[], a', by simp [markerLit, hc, hd]⟩
      · refine ih b (fun hsubA => ha (isSub_cons c hsubA)) hb ?_ hsub
        intro hl
        apply hseam
        cases a with
        | nil => simp at hl
        | cons d a' => rw [List.getLast?_cons_cons]; exact hl

theorem formatValue_head (v : JSVal) : (formatValue v).head? = some '<' := by
  have hop : spanOpenFilled.head? = some '<' := by decide
  have hes : emptySpan.head? = some '<' := by decide
  cases v with
  | null => exact hes
  | str s =>
      cases s with
      | nil => exact hes
      | cons c cs => simp [formatValue, List.head?_append, hop]
  | bool b => simp [formatValue, List.head?_append, hop]
  | num n => simp [formatValue, List.head?_append, hop]

theorem formatValue_last (v : JSVal) : (formatValue v).getLast? = some '>' := by
  have hcl : spanCloseTag.getLast? = some '>' := by decide
  have hes : emptySpan.getLast? = some '>' := by decide
  cases v with
  | null => exact hes
  | str s =>
      cases s with
      | nil => exact hes
      | cons c cs =>
          have e : formatValue (.str (c :: cs)) =
              (spanOpenFilled ++ (c :: cs)) ++ spanCloseTag := rfl
          rw [e, List.getLast?_append, hcl]
          rfl
  | bool b =>
      have e : formatValue (.bool b) =
          (spanOpenFilled ++ (if b then "Complies".data
            else "Non-compliant".data)) ++ spanCloseTag := rfl
      rw [e, List.getLast?_append, hcl]
      rfl
  | num n =>
      have e : formatValue (.num n) =
          (spanOpenFilled ++ (toString n).data) ++ spanCloseTag := rfl
      rw [e, List.getLast?_append, hcl]
      rfl

theorem fillRep_head (vals : List JSVal) (i : Nat) :
    (fillRep vals i).head? = some '<' := by
  unfold fillRep
  split
  · exact formatValue_head _
  · decide

theorem fillRep_last (vals : List JSVal) (i : Nat) :
    (fillRep vals i).getLast? = some '>' := by
  unfold fillRep
  split
  · exact formatValue_last _
  · decide

theorem fillRep_free (vals : List JSVal) (i : Nat)
    (hv : ∀ v ∈ vals, ¬ markerLit <:+: formatValue v) :
    ¬ markerLit <:+: fillRep vals i := by
  unfold fillRep
  split
  · rename_i hlt
    apply hv
    rw [List.getD_eq_getElem?_getD, List.getElem?_eq_getElem hlt]
    simp only [Option.getD_some]
    exact List.getElem_mem hlt
  · decide

theorem fillGo_cons_ne (vals : List JSVal) (i : Nat) (c : Char) (cs : JStr)
    (h : ¬(c = '\x7b' ∧ cs.head? = some '\x7d')) :
    fillGo vals i (c :: cs) = c :: fillGo vals i cs := by
  cases cs with
  | nil => simp [fillGo]
  | cons d rest =>
      rw [fillGo]
      intro rest1 hc hdr
      exact h ⟨hc, by rw [List.head?_cons, (List.cons_eq_cons.mp hdr).1]⟩

theorem countMarkers_cons_ne (c : Char) (cs : JStr)
    (h : ¬(c = '\x7b' ∧ cs.head? = some '\x7d')) :
    countMarkers (c :: cs) = countMarkers cs := by
  cases cs with
  | nil => simp [countMarkers]
  | cons d rest =>
      rw [countMarkers]
      intro rest1 hc hdr
      exact h ⟨hc, by rw [List.head?_cons, (List.cons_eq_cons.mp hdr).1]⟩

theorem fillGo_head (vals : List JSVal) :
    ∀ (n : Nat) (s : JStr), s.length ≤ n → ∀ (i : Nat),
      (fillGo vals i s).head? = some '\x7d' → s.head? = some '\x7d' := by
  intro n
  induction n with
  | zero =>
      intro s hs i h
      rw [List.eq_nil_of_length_eq_zero (Nat.le_zero.mp hs)] at h ⊢
      simp [fillGo] at h
  | succ n ih =>
      intro s hs i h
      cases s with
      | nil => simp [fillGo] at h
      | cons c cs =>
          by_cases hm : c = '\x7b' ∧ cs.head? = some '\x7d'
          · obtain ⟨hc, hcs⟩ := hm
            subst hc
            cases cs with
            | nil => simp at hcs
            | cons d rest =>
                have hd : d = '\x7d' := by simpa using hcs
                subst hd
                have he : fillGo vals i ('\x7b' :: '\x7d' :: rest)
                    = fillRep vals i ++ fillGo vals (i+1) rest := rfl
                rw [he, List.head?_append, fillRep_head] at h
                simp at h
          · rw [fillGo_cons_ne vals i c cs hm] at h
            simp at h ⊢
            exact h

theorem fillGo_free (vals : List JSVal)
    (hv : ∀ v ∈ vals, ¬ markerLit <:+: formatValue v) :
    ∀ (n : Nat) (s : JStr), s.length ≤ n → ∀ (i : Nat),
      ¬ markerLit <:+: fillGo vals i s := by
  intro n
  induction n with
  | zero =>
      intro s hs i hcon
      rw [List.eq_nil_of_length_eq_zero (Nat.le_zero.mp hs),
        show fillGo vals i ([] : JStr) = [] from rfl] at hcon
      simp [markerLit] at hcon
  | succ n ih =>
      intro s hs i
      cases s with
      | nil =>
          intro hcon
          rw [show fillGo vals i ([] : JStr) = [] from rfl] at hcon
          simp [markerLit] at hcon
      | cons c cs =>
          by_cases hm : c = '\x7b' ∧ cs.head? = some '\x7d'
          · obtain ⟨hc, hcs⟩ := hm
            subst hc
            cases cs with
            | nil => simp at hcs
            | cons d rest =>
                have hd : d = '\x7d' := by simpa using hcs
                subst hd
                have he : fillGo vals i ('\x7b' :: '\x7d' :: rest)
                    = fillRep vals i ++ fillGo vals (i+1) rest := rfl
                rw [he]
                apply markerFree_append
                · exact fillRep_free vals i hv
                · exact ih rest (by simp at hs; omega) (i+1)
                · intro hl
                  rw [fillRep_last] at hl
                  simp at hl
          · rw [fillGo_cons_ne vals i c cs hm]
            intro h
            rcases sub_cons_cases h with hpre | hsub
            · rcases hpre with ⟨w, hw⟩
              have hc : c = '\x7b' := by
                have hh := congrArg List.head? hw
                simp [markerLit] at hh
                exact hh.symm
              have hgh : (fillGo vals i cs).head? = some '\x7d' := by
                have ht := congrArg List.tail hw
                simp [markerLit] at ht
                rw [← ht]
                simp
              have := fillGo_head vals cs.length cs (le_refl _) i hgh
              exact hm ⟨hc, this⟩
            · exact ih cs (by simp at hs; omega) i hsub

/-- Claim C10 (counterexample): a mapped string value that itself contains the
bare marker `{}` survives into the preview filler's output, so the output does
contain `{}`. -/
theorem c10_counterexample :
    markerLit <:+:
      renderFillMarkers "ph \x7b\x7d".data
        [("ph".data, .str "a\x7b\x7db".data)] := by decide

/-- Claim C10 (amended): provided no mapped value formats to a string
containing the bare marker `{}`, the preview filler's marker-replacement
output contains no occurrence of `{}` — every marker is replaced by a
formatted value span or the highlighted empty marker. -/
theorem c10_no_marker_in_output (templateHtml : JStr) (data : JObj)
    (hv : ∀ v ∈ intelligentlyMapPlaceholders templateHtml data,
      ¬ markerLit <:+: formatValue v) :
    ¬ markerLit <:+: renderFillMarkers templateHtml data := by
  unfold renderFillMarkers
  exact fillGo_free _ hv templateHtml.length templateHtml (le_refl _) 0

/-- Claim C10 witness: a concrete fill whose output is marker-free. -/
theorem c10_witness :
    (∀ v ∈ intelligentlyMapPlaceholders "ph \x7b\x7d".data
        [("ph".data, JSVal.str "6.8".data)],
      ¬ markerLit <:+: formatValue v) ∧
    ¬ markerLit <:+:
      renderFillMarkers "ph \x7b\x7d".data
        [("ph".data, JSVal.str "6.8".data)] :=
  ⟨by decide,
    c10_no_marker_in_output "ph \x7b\x7d".data
      [("ph".data, JSVal.str "6.8".data)] (by decide)⟩

/-! ## Document Filler (`fillTemplateWithData`, routes source lines 921-961)

For each extracted key, the code builds `RegExp` patterns `\{key\}`,
`\{\{key\}\}`, `___key___`, `\[key\]` (the key is NOT regex-escaped) and
replaces each with the value string.  The embedding treats the pattern as the
literal string — exact whenever the key contains no regex metacharacters —
and the replacement as literal — exact whenever the replacement contains no
`$`.  The theorems below restrict keys to word characters, where both hold. -/

/-- One global literal replacement (`String.replace(pat, repl)` with a global
literal pattern): left-to-right, non-overlapping, replacements not rescanned.
Fuelled for structural recursion; callers pass `s.length`. -/
def replaceAllF (pat repl : JStr) : Nat → JStr → JStr
  | _, [] => []
  | 0, s => s
  | f+1, c :: cs =>
      if pat <+: c :: cs then
        repl ++ replaceAllF pat repl f ((c :: cs).drop pat.length)
      else c :: replaceAllF pat repl f cs

def replaceAll (pat repl s : JStr) : JStr := replaceAllF pat repl s.length s

/-- The four placeholder shapes tried for a key, in source order. -/
def keyPatterns (k : JStr) : List JStr :=
  [ ('\x7b' :: k) ++ ['\x7d'],
    ('\x7b' :: '\x7b' :: k) ++ ['\x7d', '\x7d'],
    ("___".data ++ k) ++ "___".data,
    ('[' :: k) ++ [']'] ]

/-- `extractedData[key] || ''` coerced to a string for substitution. -/
def valueStr (v : JSVal) : JStr :=
  if v.truthy then
    match v with
    | .str s => s
    | .num n => (toString n).data
    | .bool _ => "true".data
    | .null => []
  else []

/-- Process one key: apply its four pattern replacements in order. -/
def fillKeyStep (xml : JStr) (k : JStr) (v : JSVal) : JStr :=
  (keyPatterns k).foldl (fun acc pat => replaceAll pat (valueStr v) acc) xml

/-- The placeholder-replacement core of `fillTemplateWithData`: fold the
extracted entries (insertion order) over the document text. -/
def fillTemplateXml (data : JObj) (xml : JStr) : JStr :=
  data.foldl (fun acc kv => fillKeyStep acc kv.1 kv.2) xml

example :
    fillTemplateXml
      [("a".data, .str "\x7b≤\x7d".data), ("≤".data, .str "X".data)]
      "\x7ba\x7d".data = "X".data := by decide

/-- Scanning passes over characters that cannot begin a pattern match. -/
theorem passThrough (pat repl : JStr) (hpne : pat ≠ []) :
    ∀ (t : JStr), (∀ c ∈ t, pat.head? ≠ some c) →
      ∀ (f : Nat) (v : JStr), (t ++ v).length ≤ f →
        replaceAllF pat repl f (t ++ v)
          = t ++ replaceAllF pat repl (f - t.length) v := by
  intro t
  induction t with
  | nil => intro _ f v _; simp
  | cons a t ih =>
      intro hc f v hf
      cases f with
      | zero => simp at hf
      | succ f =>
          have hnp : ¬ (pat <+: a :: (t ++ v)) := by
            intro hp
            cases pat with
            | nil => exact hpne rfl
            | cons p0 prest =>
                have hpa : p0 = a := (List.cons_prefix_cons.mp hp).1
                exact hc a (by simp) (by rw [List.head?_cons, hpa])
          rw [List.cons_append, replaceAllF, if_neg hnp]
          rw [ih (fun c hct => hc c (by simp [hct])) f v (by simpa using hf)]
          simp

/-- A token whose characters cannot begin or end the pattern, and which
contains a character outside the pattern, survives global replacement: no
match region can overlap any of its occurrences. -/
theorem surviveReplace (pat repl tok : JStr)
    (hpne : pat ≠ []) (htne : tok ≠ [])
    (h3 : ∀ c ∈ tok, pat.head? ≠ some c)
    (h4 : ∀ c ∈ tok, pat.getLast? ≠ some c)
    (h5 : ∃ c ∈ tok, c ∉ pat) :
    ∀ (f : Nat) (s : JStr), s.length ≤ f → tok <:+: s →
      tok <:+: replaceAllF pat repl f s := by
  intro f
  induction f with
  | zero =>
      intro s hf hsub
      rw [List.eq_nil_of_length_eq_zero (Nat.le_zero.mp hf)] at hsub ⊢
      exact absurd (by simpa using hsub) htne
  | succ f ih =>
      intro s hf hsub
      cases s with
      | nil => exact absurd (by simpa using hsub) htne
      | cons c cs =>
          rcases hsub with ⟨u, v, huv⟩
          by_cases hp : pat <+: c :: cs
          · rw [replaceAllF, if_pos hp]
            have hple : pat.length ≤ u.length := by
              by_contra hgt
              push_neg at hgt
              have hpeq := List.prefix_iff_eq_take.mp hp
              rw [← huv] at hpeq
              by_cases hcase : pat.length ≤ u.length + tok.length
              · have e0 : pat.length - (u ++ tok).length = 0 := by
                  simp only [List.length_append]
                  omega
                have h1 : pat = u ++ tok.take (pat.length - u.length) := by
                  conv_lhs => rw [hpeq]
                  rw [List.take_append_eq_append_take,
                    List.take_append_eq_append_take,
                    List.take_of_length_le (Nat.le_of_lt hgt), e0,
                    List.take_zero, List.append_nil]
                have htkne : tok.take (pat.length - u.length) ≠ [] := by
                  intro he
                  rw [List.take_eq_nil_iff] at he
                  rcases he with he | he
                  · omega
                  · exact htne he
                have hgl : pat.getLast?
                    = (tok.take (pat.length - u.length)).getLast? := by
                  conv_lhs => rw [h1]
                  rw [List.getLast?_append,
                    List.getLast?_eq_getLast _ htkne]
                  rfl
                exact h4 _
                  (List.take_subset _ _ (List.getLast_mem htkne))
                  (hgl.trans (List.getLast?_eq_getLast _ htkne))
              · push_neg at hcase
                have h1 : pat
                    = (u ++ tok) ++ v.take (pat.length - (u ++ tok).length) := by
                  conv_lhs => rw [hpeq]
                  rw [List.take_append_eq_append_take,
                    List.take_of_length_le
                      (by simp only [List.length_append]; omega)]
                rcases h5 with ⟨cw, hcw, hcnp⟩
                apply hcnp
                rw [h1]
                exact List.mem_append.mpr
                  (Or.inl (List.mem_append.mpr (Or.inr hcw)))
            have e1 : pat.length - u.length = 0 := Nat.sub_eq_zero_of_le hple
            have e2 : pat.length - (u ++ tok).length = 0 := by
              simp only [List.length_append]
              omega
            have hdrop : tok <:+: (c :: cs).drop pat.length := by
              rw [← huv, List.drop_append_eq_append_drop,
                List.drop_append_eq_append_drop, e1, e2]
              simp only [List.drop_zero]
              exact ⟨u.drop pat.length, v, rfl⟩
            have hlen : ((c :: cs).drop pat.length).length ≤ f := by
              have hp1 : 0 < pat.length := List.length_pos.mpr hpne
              simp only [List.length_drop, List.length_cons]
              simp only [List.length_cons] at hf
              omega
            exact isSub_app_left repl (ih _ hlen hdrop)
          · rw [replaceAllF, if_neg hp]
            cases u with
            | nil =>
                cases htok : tok with
                | nil => exact absurd htok htne
                | cons t0 ts =>
                    rw [htok] at huv
                    have hts : t0 = c ∧ ts ++ v = cs := by
                      simp only [List.nil_append, List.cons_append,
                        List.cons.injEq] at huv
                      exact ⟨huv.1, huv.2⟩
                    have hlen2 : (ts ++ v).length ≤ f := by
                      rw [hts.2]
                      simp only [List.length_cons] at hf
                      omega
                    have hpass := passThrough pat repl hpne ts
                      (fun ch hch => h3 ch (by rw [htok]; simp [hch]))
                      f v hlen2
                    rw [← hts.2, hpass]
                    exact ⟨[], replaceAllF pat repl (f - ts.length) v,
                      by simp [hts.1]⟩
            | cons a u' =>
                have hca : a = c ∧ (u' ++ tok) ++ v = cs := by
                  simp only [List.cons_append, List.cons.injEq] at huv
                  exact ⟨huv.1, huv.2⟩
                refine isSub_cons c (ih cs ?_ ⟨u', v, hca.2⟩)
                simp only [List.length_cons] at hf
                omega

/-- A global replacement whose pattern occurs somewhere inserts its
replacement string into the output. -/
theorem replInserted (pat repl : JStr) (hpne : pat ≠ []) :
    ∀ (f : Nat) (s : JStr), s.length ≤ f → pat <:+: s →
      repl <:+: replaceAllF pat repl f s := by
  intro f
  induction f with
  | zero =>
      intro s hf hsub
      rw [List.eq_nil_of_length_eq_zero (Nat.le_zero.mp hf)] at hsub
      exact absurd (by simpa using hsub) hpne
  | succ f ih =>
      intro s hf hsub
      cases s with
      | nil => exact absurd (by simpa using hsub) hpne
      | cons c cs =>
          by_cases hp : pat <+: c :: cs
          · rw [replaceAllF, if_pos hp]
            exact isSub_app_right _ ⟨[], [], by simp⟩
          · rw [replaceAllF, if_neg hp]
            rcases sub_cons_cases hsub with hpre | hsub'
            · exact absurd hpre hp
            · refine isSub_cons c (ih cs ?_ hsub')
              simp only [List.length_cons] at hf
              omega

/-- A string value mapped to the i-th marker is spliced verbatim into the
preview filler's output. -/
theorem fillGo_contains (vals : List JSVal) (s : JStr) (hs : s ≠ [])
    (i : Nat) (hv : vals[i]? = some (.str s)) :
    ∀ (n : Nat) (html : JStr), html.length ≤ n → ∀ (j : Nat), j ≤ i →
      i - j < countMarkers html → s <:+: fillGo vals j html := by
  intro n
  induction n with
  | zero =>
      intro html hlen j _ hcount
      rw [List.eq_nil_of_length_eq_zero (Nat.le_zero.mp hlen)] at hcount
      simp [countMarkers] at hcount
  | succ n ih =>
      intro html hlen j hj hcount
      cases html with
      | nil => simp [countMarkers] at hcount
      | cons c cs =>
          by_cases hm : c = '\x7b' ∧ cs.head? = some '\x7d'
          · obtain ⟨hc, hcs⟩ := hm
            subst hc
            cases cs with
            | nil => simp at hcs
            | cons d rest =>
                have hd : d = '\x7d' := by simpa using hcs
                subst hd
                have he : fillGo vals j ('\x7b' :: '\x7d' :: rest)
                    = fillRep vals j ++ fillGo vals (j+1) rest := rfl
                rw [he]
                by_cases hji : j = i
                · subst hji
                  apply isSub_app_right
                  have hlt : j < vals.length := by
                    rcases List.getElem?_eq_some_iff.mp hv with ⟨h1, _⟩
                    exact h1
                  have hgd : vals.getD j JSVal.null = .str s := by
                    rw [List.getD_eq_getElem?_getD, hv]
                    rfl
                  unfold fillRep
                  rw [if_pos hlt, hgd]
                  cases s with
                  | nil => exact absurd rfl hs
                  | cons a as =>
                      have e : formatValue (.str (a :: as))
                          = (spanOpenFilled ++ (a :: as)) ++ spanCloseTag := rfl
                      rw [e]
                      exact isSub_app_right _
                        (isSub_app_left _ ⟨[], [], by simp⟩)
                · apply isSub_app_left
                  apply ih rest (by simp at hlen; omega) (j+1) (by omega)
                  have hcm : countMarkers ('\x7b' :: '\x7d' :: rest)
                      = countMarkers rest + 1 := rfl
                  rw [hcm] at hcount
                  omega
          · rw [fillGo_cons_ne vals j c cs hm]
            apply isSub_cons
            apply ih cs (by simp at hlen; omega) j hj
            rw [countMarkers_cons_ne c cs hm] at hcount
            exact hcount

/-- JavaScript `\w`: ASCII letters, digits, underscore. -/
def isWordChar (c : Char) : Bool :=
  ('a' ≤ c && c ≤ 'z') || ('A' ≤ c && c ≤ 'Z') || c.isDigit || c = '_'

/-- Characters appearing in the protected symbol classes. -/
def protCharB (c : Char) : Bool :=
  c = '%' || c = '≤' || c = '≥' || c = 'x' || c = ' ' || c = '^' || c.isDigit

/-- Protected characters that are neither word characters nor placeholder
delimiters — the witnesses that no key pattern can contain. -/
def nonWordProt (c : Char) : Bool :=
  c = '%' || c = '≤' || c = '≥' || c = ' '

/-- The protected symbol classes of the claim: `%`, `≤`, `≥`, and a
scientific-notation token `x 10^` followed by a digit. -/
def protectedTok (t : JStr) : Prop :=
  t = ['%'] ∨ t = ['≤'] ∨ t = ['≥'] ∨
    ∃ d : Char, d.isDigit ∧ t = "x 10^".data ++ [d]

theorem protectedTok_ne {t : JStr} (h : protectedTok t) : t ≠ [] := by
  rcases h with h | h | h | ⟨d, _, h⟩ <;> subst h <;> simp

theorem protectedTok_chars {t : JStr} (h : protectedTok t) :
    ∀ c ∈ t, protCharB c := by
  rcases h with h | h | h | ⟨d, hd, h⟩ <;> subst h
  · intro c hc; rw [List.mem_singleton.mp hc]; decide
  · intro c hc; rw [List.mem_singleton.mp hc]; decide
  · intro c hc; rw [List.mem_singleton.mp hc]; decide
  · intro c hc
    rcases List.mem_append.mp hc with hm | hm
    · have : c = 'x' ∨ c = ' ' ∨ c = '1' ∨ c = '0' ∨ c = '^' := by
        simpa using hm
      rcases this with h'|h'|h'|h'|h' <;> subst h' <;> decide
    · rw [List.mem_singleton.mp hm]
      simp [protCharB, hd]

theorem protectedTok_witness {t : JStr} (h : protectedTok t) :
    ∃ c ∈ t, nonWordProt c := by
  rcases h with h | h | h | ⟨d, _, h⟩ <;> subst h
  · exact ⟨'%', by simp, by decide⟩
  · exact ⟨'≤', by simp, by decide⟩
  · exact ⟨'≥', by simp, by decide⟩
  · refine ⟨' ', ?_, by decide⟩
    exact List.mem_append.mpr (Or.inl (by decide))

theorem protChar_facts {c : Char} (h : protCharB c = true) :
    c ≠ '\x7b' ∧ c ≠ '\x7d' ∧ c ≠ '_' ∧ c ≠ '[' ∧ c ≠ ']' := by
  refine ⟨?_, ?_, ?_, ?_, ?_⟩ <;> intro he <;> rw [he] at h <;>
    exact absurd h (by decide)

theorem nonWordProt_facts {c : Char} (h : nonWordProt c = true) :
    isWordChar c = false ∧ c ≠ '\x7b' ∧ c ≠ '\x7d' ∧ c ≠ '_' ∧
      c ≠ '[' ∧ c ≠ ']' := by
  have h' : ((c = '%' ∨ c = '≤') ∨ c = '≥') ∨ c = ' ' := by
    simpa [nonWordProt] using h
  rcases h' with ((h'|h')|h')|h' <;> subst h' <;> exact by decide

theorem keyPattern_conds (k : JStr) (hk : ∀ c ∈ k, isWordChar c = true)
    (tok : JStr) (ht : protectedTok tok) :
    ∀ pat ∈ keyPatterns k,
      pat ≠ [] ∧ (∀ c ∈ tok, pat.head? ≠ some c) ∧
      (∀ c ∈ tok, pat.getLast? ≠ some c) ∧ (∃ c ∈ tok, c ∉ pat) := by
  intro pat hp
  have htc := protectedTok_chars ht
  obtain ⟨cw, hcw, hcwb⟩ := protectedTok_witness ht
  obtain ⟨hw1, hw2, hw3, hw4, hw5, hw6⟩ := nonWordProt_facts hcwb
  have hkw : cw ∉ k := fun hin =>
    absurd ((hk cw hin).symm.trans hw1) (by decide)
  simp only [keyPatterns, List.mem_cons, List.mem_singleton,
    List.not_mem_nil, or_false] at hp
  rcases hp with h | h | h | h <;> subst h
  · refine ⟨by simp, ?_, ?_, ⟨cw, hcw, ?_⟩⟩
    · intro c hc heq
      have hh : (('\x7b' :: k) ++ ['\x7d']).head? = some '\x7b' := by
        rw [List.cons_append]; rfl
      rw [hh] at heq
      exact (protChar_facts (htc c hc)).1 (Option.some_inj.mp heq).symm
    · intro c hc heq
      rw [List.getLast?_concat] at heq
      exact (protChar_facts (htc c hc)).2.1 (Option.some_inj.mp heq).symm
    · intro hmem
      rcases List.mem_append.mp hmem with hm | hm
      · rcases List.mem_cons.mp hm with he | hin
        · exact hw2 he
        · exact hkw hin
      · exact hw3 (by simpa using hm)
  · refine ⟨by simp, ?_, ?_, ⟨cw, hcw, ?_⟩⟩
    · intro c hc heq
      have hh : (('\x7b' :: '\x7b' :: k) ++ ['\x7d', '\x7d']).head?
          = some '\x7b' := by
        rw [List.cons_append]; rfl
      rw [hh] at heq
      exact (protChar_facts (htc c hc)).1 (Option.some_inj.mp heq).symm
    · intro c hc heq
      have hh : (('\x7b' :: '\x7b' :: k) ++ ['\x7d', '\x7d']).getLast?
          = some '\x7d' := by
        rw [List.getLast?_append]; rfl
      rw [hh] at heq
      exact (protChar_facts (htc c hc)).2.1 (Option.some_inj.mp heq).symm
    · intro hmem
      rcases List.mem_append.mp hmem with hm | hm
      · rcases List.mem_cons.mp hm with he | hm2
        · exact hw2 he
        · rcases List.mem_cons.mp hm2 with he | hin
          · exact hw2 he
          · exact hkw hin
      · have : cw = '\x7d' ∨ cw = '\x7d' := by simpa using hm
        rcases this with he | he <;> exact hw3 he
  · refine ⟨by simp, ?_, ?_, ⟨cw, hcw, ?_⟩⟩
    · intro c hc heq
      have hh : (("___".data ++ k) ++ "___".data).head? = some '_' := rfl
      rw [hh] at heq
      exact (protChar_facts (htc c hc)).2.2.1 (Option.some_inj.mp heq).symm
    · intro c hc heq
      have hh : (("___".data ++ k) ++ "___".data).getLast? = some '_' := by
        rw [List.getLast?_append]; rfl
      rw [hh] at heq
      exact (protChar_facts (htc c hc)).2.2.1 (Option.some_inj.mp heq).symm
    · intro hmem
      rcases List.mem_append.mp hmem with hm | hm
      · rcases List.mem_append.mp hm with hm2 | hin
        · have : cw = '_' := by
            rcases (by simpa using hm2 : cw = '_' ∨ cw = '_' ∨ cw = '_') with
              h|h|h <;> exact h
          exact hw4 this
        · exact hkw hin
      · have : cw = '_' := by
          rcases (by simpa using hm : cw = '_' ∨ cw = '_' ∨ cw = '_') with
            h|h|h <;> exact h
        exact hw4 this
  · refine ⟨by simp, ?_, ?_, ⟨cw, hcw, ?_⟩⟩
    · intro c hc heq
      have hh : (('[' :: k) ++ [']']).head? = some '[' := by
        rw [List.cons_append]; rfl
      rw [hh] at heq
      exact (protChar_facts (htc c hc)).2.2.2.1 (Option.some_inj.mp heq).symm
    · intro c hc heq
      rw [List.getLast?_concat] at heq
      exact (protChar_facts (htc c hc)).2.2.2.2 (Option.some_inj.mp heq).symm
    · intro hmem
      rcases List.mem_append.mp hmem with hm | hm
      · rcases List.mem_cons.mp hm with he | hin
        · exact hw5 he
        · exact hkw hin
      · exact hw6 (by simpa using hm)

theorem surviveKeyStep (k : JStr) (hk : ∀ c ∈ k, isWordChar c = true)
    (v : JSVal) (tok : JStr) (ht : protectedTok tok)
    (xml : JStr) (hsub : tok <:+: xml) :
    tok <:+: fillKeyStep xml k v := by
  have hstep : ∀ pat ∈ keyPatterns k, ∀ s : JStr, tok <:+: s →
      tok <:+: replaceAll pat (valueStr v) s := by
    intro pat hp s hs
    obtain ⟨h1, h2, h3p, h4p⟩ := keyPattern_conds k hk tok ht pat hp
    exact surviveReplace pat _ tok h1 (protectedTok_ne ht) h2 h3p h4p
      s.length s (le_refl _) hs
  unfold fillKeyStep
  simp only [keyPatterns, List.foldl_cons, List.foldl_nil]
  apply hstep _ (by simp [keyPatterns])
  apply hstep _ (by simp [keyPatterns])
  apply hstep _ (by simp [keyPatterns])
  exact hstep _ (by simp [keyPatterns]) xml hsub

theorem insertKeyStep (k : JStr) (hk : ∀ c ∈ k, isWordChar c = true)
    (sv : JStr) (tok : JStr) (ht : protectedTok tok) (htin : tok <:+: sv)
    (xml : JStr) (hocc : (('\x7b' :: k) ++ ['\x7d']) <:+: xml) :
    tok <:+: fillKeyStep xml k (.str sv) := by
  have hsvne : sv ≠ [] := by
    intro he
    subst he
    exact (protectedTok_ne ht) (by simpa using htin)
  have hv : valueStr (.str sv) = sv := by
    unfold valueStr
    rw [if_pos (by simpa [JSVal.truthy] using hsvne)]
  have hstep : ∀ pat ∈ keyPatterns k, ∀ s : JStr, tok <:+: s →
      tok <:+: replaceAll pat (valueStr (.str sv)) s := by
    intro pat hp s hs
    obtain ⟨h1, h2, h3p, h4p⟩ := keyPattern_conds k hk tok ht pat hp
    exact surviveReplace pat _ tok h1 (protectedTok_ne ht) h2 h3p h4p
      s.length s (le_refl _) hs
  have h1 : tok <:+:
      replaceAll (('\x7b' :: k) ++ ['\x7d']) (valueStr (.str sv)) xml := by
    unfold replaceAll
    rw [hv]
    exact htin.trans
      (replInserted (('\x7b' :: k) ++ ['\x7d']) sv (by simp)
        xml.length xml (le_refl _) hocc)
  unfold fillKeyStep
  simp only [keyPatterns, List.foldl_cons, List.foldl_nil]
  apply hstep _ (by simp [keyPatterns])
  apply hstep _ (by simp [keyPatterns])
  apply hstep _ (by simp [keyPatterns])
  exact h1

theorem surviveFill (tok : JStr) (ht : protectedTok tok) :
    ∀ (data : JObj), (∀ kv ∈ data, ∀ c ∈ kv.1, isWordChar c = true) →
      ∀ xml : JStr, tok <:+: xml → tok <:+: fillTemplateXml data xml := by
  intro data
  induction data with
  | nil => intro _ xml h; exact h
  | cons kv data ih =>
      intro hks xml h
      have he : fillTemplateXml (kv :: data) xml
          = fillTemplateXml data (fillKeyStep xml kv.1 kv.2) := by
        unfold fillTemplateXml
        rw [List.foldl_cons]
      rw [he]
      exact ih (fun kv' h' => hks kv' (by simp [h']))
        _ (surviveKeyStep kv.1 (hks kv (by simp)) kv.2 tok ht xml h)

/-- Claim C2 (counterexample): the substituted value `{≤}` contains the
protected symbol `≤` and is substituted for the placeholder `{a}`, yet the
Filler's output `X` does not contain `≤` — a later key's pattern consumed it. -/
theorem c2_counterexample :
    fillTemplateXml
        [("a".data, .str "\x7b≤\x7d".data), ("≤".data, .str "X".data)]
        "\x7ba\x7d".data = "X".data ∧
    (['≤'] : JStr) <:+: "\x7b≤\x7d".data ∧
    (('\x7b' :: "a".data) ++ ['\x7d']) <:+: "\x7ba\x7d".data ∧
    ¬ (['≤'] : JStr) <:+:
      fillTemplateXml
        [("a".data, .str "\x7b≤\x7d".data), ("≤".data, .str "X".data)]
        "\x7ba\x7d".data := by
  refine ⟨by decide, by decide, by decide, by decide⟩

/-- Claim C2 (amended): a protected symbol occurrence in a substituted string
value survives to the Filler's output, provided no other placeholder pattern
can overlap it — in the preview filler unconditionally, and in the document
filler whenever every extracted key consists of word characters. -/
theorem c2_verbatim_fidelity (tok : JStr) (ht : protectedTok tok) :
    (∀ (vals : List JSVal) (s : JStr) (i : Nat) (html : JStr),
      vals[i]? = some (.str s) → tok <:+: s → i < countMarkers html →
      tok <:+: fillGo vals 0 html) ∧
    (∀ (pre post : JObj) (k sv xml : JStr),
      tok <:+: sv →
      (∀ kv ∈ pre ++ ((k, JSVal.str sv) :: post), ∀ c ∈ kv.1,
        isWordChar c = true) →
      (('\x7b' :: k) ++ ['\x7d']) <:+: fillTemplateXml pre xml →
      tok <:+: fillTemplateXml (pre ++ ((k, JSVal.str sv) :: post)) xml) := by
  constructor
  · intro vals s i html hv htin hcount
    have hs : s ≠ [] := by
      intro he
      subst he
      exact (protectedTok_ne ht) (by simpa using htin)
    exact htin.trans
      (fillGo_contains vals s hs i hv html.length html (le_refl _) 0
        (Nat.zero_le i) (by simpa using hcount))
  · intro pre post k sv xml htin hks hocc
    have he : fillTemplateXml (pre ++ ((k, JSVal.str sv) :: post)) xml
        = fillTemplateXml post
            (fillKeyStep (fillTemplateXml pre xml) k (JSVal.str sv)) := by
      unfold fillTemplateXml
      rw [List.foldl_append, List.foldl_cons]
    rw [he]
    have hkk : ∀ c ∈ k, isWordChar c = true :=
      hks (k, JSVal.str sv) (by simp)
    exact surviveFill tok ht post
      (fun kv h' => hks kv (by simp [h']))
      _ (insertKeyStep k hkk sv tok ht htin _ hocc)

/-- Claim C2 witness: concrete protected values survive both fillers. -/
theorem c2_witness :
    ((['%'] : JStr) <:+: "98.5%".data ∧
      (0 : Nat) < countMarkers "\x7b\x7d".data ∧
      (['%'] : JStr) <:+:
        fillGo [JSVal.str "98.5%".data] 0 "\x7b\x7d".data) ∧
    ((['%'] : JStr) <:+: "6.8%".data ∧
      (('\x7b' :: "ph".data) ++ ['\x7d']) <:+:
        fillTemplateXml [] "\x7bph\x7d".data ∧
      (['%'] : JStr) <:+:
        fillTemplateXml [("ph".data, JSVal.str "6.8%".data)]
          "\x7bph\x7d".data) :=
  ⟨⟨by decide, by decide,
    (c2_verbatim_fidelity ['%'] (Or.inl rfl)).1
      [JSVal.str "98.5%".data] "98.5%".data 0 "\x7b\x7d".data
      (by decide) (by decide) (by decide)⟩,
   ⟨by decide, by decide, by
    have := (c2_verbatim_fidelity ['%'] (Or.inl rfl)).2
      [] [] "ph".data "6.8%".data "\x7bph\x7d".data
      (by decide) (by decide) (by decide)
    simpa using this⟩⟩

/-! ## Placeholder Locator (`comprehensivePlaceholderDetection` and its
strategies, server mistral.ts 85-209 and 514-661)

The AI strategy (`identifyTemplatePlaceholders`, a network call) is a
parameter `ai`; a failed call leaves it `[]` in the source, which the
parameter also covers. -/

def natStr (n : Nat) : JStr := (Nat.repr n).data

def placeholderName (n : Nat) : JStr := "placeholder_".data ++ natStr n

def syntheticFieldName (n : Nat) : JStr := "field_".data ++ natStr n

/-- Positions of all `{}` matches of the global regex (the two-character
marker cannot overlap itself, so position-by-position scanning finds exactly
the regex's non-overlapping matches). -/
def markerPositions : JStr → Nat → List Nat
  | [], _ => []
  | c :: cs, i =>
      (if c = '\x7b' ∧ cs.head? = some '\x7d' then [i] else []) ++
        markerPositions cs (i+1)

/-- The name-delimiter class `[^:|\t\|]` of the before-text patterns
(mistral.ts 559-563). -/
def isDelim (c : Char) : Bool := c = ':' || c = '|' || c = '\t'

/-- First (leftmost) match of `/([^:|\t\|]+)[:|\t\|]\s*$/` — a maximal
non-delimiter run, one delimiter, then white space to the end. -/
def p1At (s : JStr) : Option JStr :=
  let run := s.takeWhile (fun c => !isDelim c)
  if run = [] then none
  else
    match s.drop run.length with
    | d :: tail => if isDelim d && tail.all isJsWS then some run else none
    | [] => none

def p1Find : Nat → JStr → Option JStr
  | 0, _ => none
  | f+1, s =>
      match p1At s with
      | some r => some r
      | none =>
          match s with
          | [] => none
          | _ :: s' => p1Find f s'

/-- First match of `/([^:|\t\|]+)\s+$/` — run to end of string whose last
character is white space; the greedy capture keeps all but that character. -/
def p2At (s : JStr) : Option JStr :=
  let run := s.takeWhile (fun c => !isDelim c)
  if s.drop run.length = [] then
    match run.getLast? with
    | some c => if isJsWS c && decide (2 ≤ run.length)
        then some run.dropLast else none
    | none => none
  else none

def p2Find : Nat → JStr → Option JStr
  | 0, _ => none
  | f+1, s =>
      match p2At s with
      | some r => some r
      | none =>
          match s with
          | [] => none
          | _ :: s' => p2Find f s'

/-- First match of `/([^:|\t\|]+)$/` — a non-empty non-delimiter run to the
end of the string. -/
def p3At (s : JStr) : Option JStr :=
  let run := s.takeWhile (fun c => !isDelim c)
  if s.drop run.length = [] ∧ run ≠ [] then some run else none

def p3Find : Nat → JStr → Option JStr
  | 0, _ => none
  | f+1, s =>
      match p3At s with
      | some r => some r
      | none =>
          match s with
          | [] => none
          | _ :: s' => p3Find f s'

/-- `match[1].trim()` of the first successful of the three patterns
(mistral.ts 558-571); empty when all three fail. -/
def matchBefore (beforeText : JStr) : JStr :=
  match p1Find (beforeText.length + 1) beforeText with
  | some r => jsTrim r
  | none =>
      match p2Find (beforeText.length + 1) beforeText with
      | some r => jsTrim r
      | none =>
          match p3Find (beforeText.length + 1) beforeText with
          | some r => jsTrim r
          | none => []

def isCDP (c : Char) : Bool := c = ':' || c = '.' || c = '|'

def dropTrailRun (p : Char → Bool) (s : JStr) : JStr :=
  (s.reverse.dropWhile p).reverse

/-- Replace each maximal run of characters satisfying `p` by `r` (the
`/\s+/g` and `/_+/g` substitutions); fuelled. -/
def collapseRunsF (p : Char → Bool) (r : Char) : Nat → JStr → JStr
  | _, [] => []
  | 0, s => s
  | f+1, c :: cs =>
      if p c then r :: collapseRunsF p r f (cs.dropWhile p)
      else c :: collapseRunsF p r f cs

def collapseRuns (p : Char → Bool) (r : Char) (s : JStr) : JStr :=
  collapseRunsF p r s.length s

/-- `/^_|_$/g`: one leading and one trailing underscore removed. -/
def stripEdgeUnderscores (s : JStr) : JStr :=
  let s1 := if s.head? = some '_' then s.tail else s
  if s1.getLast? = some '_' then s1.dropLast else s1

/-- The field-name cleanup chain (mistral.ts 591-600). -/
def cleanupName (s : JStr) : JStr :=
  let s := dropTrailRun isCDP s
  let s := s.dropWhile isCDP
  let s := jsTrim s
  let s := toLowerJS s
  let s := collapseRuns isJsWS '_' s
  let s := s.filter isWordChar
  let s := collapseRuns (fun c => c = '_') '_' s
  stripEdgeUnderscores s

/-- Name the markers of one line (mistral.ts 550-615): before-text patterns,
then the trimmed previous line, then the trimmed next line, then a synthetic
`placeholder_<n>` name. -/
def nameMatches (line : JStr) (lineStart : Nat) (prev next : Option JStr) :
    List Nat → List JStr × Nat → List JStr × Nat
  | [], acc => acc
  | pos :: ms, (names, processed) =>
      let localPos := pos - lineStart
      let beforeText := jsTrim (line.take localPos)
      let f1 := if beforeText ≠ [] then matchBefore beforeText else []
      let f2 :=
        if f1 = [] then
          match prev with
          | some pl =>
              let t := jsTrim pl
              if t ≠ [] ∧ ¬ hasSub markerLit t then t else []
          | none => []
        else f1
      let f3 :=
        if f2 = [] then
          match next with
          | some nl =>
              let t := jsTrim nl
              if t ≠ [] ∧ ¬ hasSub markerLit t then t else []
          | none => []
        else f2
      let newName :=
        if f3 ≠ [] then
          let cleaned := cleanupName f3
          if cleaned ≠ [] then cleaned else placeholderName (processed + 1)
        else placeholderName (processed + 1)
      nameMatches line lineStart prev next ms
        (names ++ [newName], processed + 1)

/-- Walk the lines with the running character index (mistral.ts 539-619). -/
def directGo (positions : List Nat) :
    Option JStr → Nat → Nat → List JStr → List JStr
  | _, _, _, [] => []
  | prev, curIdx, processed, line :: rest =>
      let lineMatches := positions.filter
        (fun p => curIdx ≤ p ∧ p ≤ curIdx + line.length)
      let r := nameMatches line curIdx prev rest.head? lineMatches
        ([], processed)
      r.1 ++ directGo positions (some line) (curIdx + line.length + 1)
        (processed + lineMatches.length) rest

/-- The trailing `while` padding loop (mistral.ts 622-624); fuelled. -/
def padF : Nat → List JStr → Nat → List JStr
  | 0, acc, _ => acc
  | f+1, acc, target =>
      if acc.length < target then
        padF f (acc ++ [placeholderName (acc.length + 1)]) target
      else acc

/-- `extractDirectPlaceholders(text)` (mistral.ts 514-628). -/
def extractDirectPlaceholders (text : JStr) : List JStr :=
  let positions := markerPositions text 0
  if positions = [] then []
  else
    let lines := splitOnChar '\n' text
    let res := directGo positions none 0 0 lines
    padF positions.length res positions.length

example : extractDirectPlaceholders "Batch Number: \x7b\x7d\npH \x7b\x7d".data
    = ["batch_number".data, "ph".data] := by decide

example : extractDirectPlaceholders "\x7b\x7d".data
    = [placeholderName 1] := by decide

/-- Scanner for the delimiter-style alternative patterns
(`{{…}}`, `[…]`, `___…___`, `${…}`, `<…>`): open delimiter, one-or-more
characters outside the stop class, close delimiter; fuelled left-to-right
scan skipping past matches (regex `lastIndex` semantics). -/
def scanDelimF (openD : JStr) (notIn : Char → Bool) (closeD : JStr) :
    Nat → JStr → List JStr
  | 0, _ => []
  | f+1, s =>
      match s with
      | [] => []
      | _ :: s' =>
          if openD <+: s then
            let cap := (s.drop openD.length).takeWhile notIn
            if cap ≠ [] ∧ closeD <+: ((s.drop openD.length).drop cap.length)
            then
              cap :: scanDelimF openD notIn closeD f
                (((s.drop openD.length).drop cap.length).drop closeD.length)
            else scanDelimF openD notIn closeD f s'
          else scanDelimF openD notIn closeD f s'

/-- Scanner for `/_+([A-Za-z][A-Za-z0-9_]*?)_+/g`: a run of underscores, a
letter, the lazy word-character extension up to the next underscore, and the
greedy trailing underscore run. -/
def scanUnderscoreF : Nat → JStr → List JStr
  | 0, _ => []
  | f+1, s =>
      match s with
      | [] => []
      | c :: s' =>
          if c = '_' then
            let run := s.takeWhile (fun c => c = '_')
            match s.drop run.length with
            | [] => []
            | l :: rest =>
                if l.isAlpha then
                  let ext := rest.takeWhile
                    (fun c => isWordChar c && !(c = '_'))
                  let after2 := rest.drop ext.length
                  if after2.head? = some '_' then
                    (l :: ext) :: scanUnderscoreF f
                      (after2.drop (after2.takeWhile (fun c => c = '_')).length)
                  else scanUnderscoreF f s'
                else scanUnderscoreF f s'
          else scanUnderscoreF f s'

/-- The cleanup applied to each alternative capture (mistral.ts 647-651). -/
def altCleanup (cap : JStr) : JStr :=
  let s := toLowerJS (jsTrim cap)
  let s := collapseRuns isJsWS '_' s
  let s := s.filter isWordChar
  let s := collapseRuns (fun c => c = '_') '_' s
  stripEdgeUnderscores s

/-- `extractAlternativePlaceholders(text)` (mistral.ts 631-661): six pattern
scans in order, cleaned, deduplicated, insertion order kept. -/
def extractAlternativePlaceholders (text : JStr) : List JStr :=
  let capss : List (List JStr) :=
    [ scanDelimF ['\x7b', '\x7b'] (fun c => !(c = '\x7d')) ['\x7d', '\x7d']
        (text.length + 1) text,
      scanDelimF ['['] (fun c => !(c = ']')) [']'] (text.length + 1) text,
      scanDelimF "___".data (fun c => !(c = '_')) "___".data
        (text.length + 1) text,
      scanUnderscoreF (text.length + 1) text,
      scanDelimF ['$', '\x7b'] (fun c => !(c = '\x7d')) ['\x7d']
        (text.length + 1) text,
      scanDelimF ['<'] (fun c => !(c = '>')) ['>'] (text.length + 1) text ]
  capss.foldl
    (fun acc caps =>
      caps.foldl
        (fun acc cap =>
          let n := altCleanup cap
          if n ≠ [] ∧ ¬ acc.contains n then acc ++ [n] else acc) acc) []

/-- The structural field-pattern library (mistral.ts 170-187): regex (as a
white-space-gap word chain) and canonical name. -/
def structuralRules : List (List JStr × JStr) :=
  [ (["batch".data, "number".data], "batch_number".data),
    (["manufacturing".data, "date".data], "manufacturing_date".data),
    (["expiry".data, "date".data], "expiry_date".data),
    (["appearance".data], "appearance".data),
    (["molecular".data, "weight".data], "molecular_weight".data),
    (["sodium".data, "hyaluronate".data, "content".data],
      "sodium_hyaluronate_content".data),
    (["protein".data], "protein".data),
    (["loss".data, "on".data, "drying".data], "loss_on_drying".data),
    (["ph".data], "ph".data),
    (["staphylococcus".data, "aureus".data], "staphylococcus_aureus".data),
    (["pseudomonas".data, "aeruginosa".data],
      "pseudomonas_aeruginosa".data),
    (["heavy".data, "metal".data], "heavy_metal".data),
    (["total".data, "bacteria".data], "total_bacteria".data),
    (["yeast".data, "and".data, "molds".data], "yeast_and_molds".data),
    (["issued".data, "date".data], "issued_date".data),
    (["test".data, "result".data], "test_result".data) ]

def spacedName (n : JStr) : JStr := n.map (fun c => if c = '_' then ' ' else c)

/-- `extractStructuralPlaceholders(text)` (mistral.ts 161-209). -/
def extractStructuralPlaceholders (text : JStr) : List JStr :=
  let lines := ((splitOnChar '\n' text).map jsTrim).filter (fun l => l ≠ [])
  structuralRules.foldl
    (fun acc r =>
      if lines.any (fun l => chainSearch isJsWS r.1 (toLowerJS l)) then
        acc ++ [r.2]
      else if hasSub (spacedName r.2) (toLowerJS text) then acc ++ [r.2]
      else acc) []

/-- The hard-coded fallback list of the sixteen canonical
Certificate-of-Analysis fields (mistral.ts 128-145). -/
def fallbackCoAList : List JStr :=
  [ "batch_number".data, "manufacturing_date".data, "expiry_date".data,
    "appearance".data, "molecular_weight".data,
    "sodium_hyaluronate_content".data, "protein".data,
    "loss_on_drying".data, "ph".data, "staphylococcus_aureus".data,
    "pseudomonas_aeruginosa".data, "heavy_metal".data,
    "total_bacteria".data, "yeast_and_molds".data, "issued_date".data,
    "test_result".data ]

/-- The final validation map (mistral.ts 149-154): empty or blank names become
`field_<index+1>`. -/
def validatePlaceholders (l : List JStr) : List JStr :=
  l.enum.map
    (fun p => if p.2 = [] ∨ jsTrim p.2 = [] then syntheticFieldName (p.1 + 1)
      else p.2)

/-- `comprehensivePlaceholderDetection(text, apiKey)` (mistral.ts 85-158);
`ai` models Method 3's result (empty on failure). -/
def comprehensivePlaceholderDetection (text : JStr) (ai : List JStr) :
    List JStr :=
  let d := extractDirectPlaceholders text
  let a := extractAlternativePlaceholders text
  let s := extractStructuralPlaceholders text
  let fin :=
    if d.length ≥ s.length ∧ 0 < d.length then d
    else if d.length < s.length then s
    else if 0 < a.length then a
    else if 0 < ai.length then ai
    else fallbackCoAList
  validatePlaceholders fin

example :
    comprehensivePlaceholderDetection "a: \x7b\x7d\n<bb> <cc>".data [] =
      ["a".data] := by decide

example :
    extractAlternativePlaceholders "a: \x7b\x7d\n<bb> <cc>".data =
      ["bb".data, "cc".data] := by decide

theorem syntheticFieldName_ne_nil (n : Nat) : syntheticFieldName n ≠ [] := by
  simp [syntheticFieldName]

theorem validate_mem_ne_nil {l : List JStr} {name : JStr}
    (h : name ∈ validatePlaceholders l) : name ≠ [] := by
  unfold validatePlaceholders at h
  rcases List.mem_map.mp h with ⟨p, _, he⟩
  by_cases hc : p.2 = [] ∨ jsTrim p.2 = []
  · rw [if_pos hc] at he
    rw [← he]
    exact syntheticFieldName_ne_nil (p.1 + 1)
  · rw [if_neg hc] at he
    rw [← he]
    exact fun hn => hc (Or.inl hn)

/-- C4. The claimed highest-yield selection policy fails: on a template whose
direct scan finds one placeholder and whose alternate scan finds two, the
Locator still returns the direct result, because the cascade only compares the
direct and structural counts and consults the alternate scan only when both
are empty. -/
theorem c4_counterexample :
    extractDirectPlaceholders "a: \x7b\x7d\n<bb> <cc>".data = ["a".data] ∧
    extractAlternativePlaceholders "a: \x7b\x7d\n<bb> <cc>".data =
      ["bb".data, "cc".data] ∧
    extractStructuralPlaceholders "a: \x7b\x7d\n<bb> <cc>".data = [] ∧
    comprehensivePlaceholderDetection "a: \x7b\x7d\n<bb> <cc>".data [] =
      ["a".data] ∧
    comprehensivePlaceholderDetection "a: \x7b\x7d\n<bb> <cc>".data [] ≠
      ["bb".data, "cc".data] := by
  refine ⟨by decide, by decide, by decide, by decide, by decide⟩

/-- C4 (amended). The actual selection policy of
`comprehensivePlaceholderDetection`: direct wins whenever it is non-empty and
at least as long as structural; structural wins whenever strictly longer than
direct; only when direct and structural are both empty are the alternate
scan, then the AI result, then the sixteen-field fallback consulted, in that
order; the winner then passes through the validation map. -/
theorem c4_selection_policy (text : JStr) (ai d s a : List JStr)
    (hd : extractDirectPlaceholders text = d)
    (hs : extractStructuralPlaceholders text = s)
    (ha : extractAlternativePlaceholders text = a) :
    (d.length ≥ s.length ∧ 0 < d.length →
      comprehensivePlaceholderDetection text ai = validatePlaceholders d) ∧
    (d.length < s.length →
      comprehensivePlaceholderDetection text ai = validatePlaceholders s) ∧
    (d = [] → s = [] → a ≠ [] →
      comprehensivePlaceholderDetection text ai = validatePlaceholders a) ∧
    (d = [] → s = [] → a = [] → ai ≠ [] →
      comprehensivePlaceholderDetection text ai = validatePlaceholders ai) ∧
    (d = [] → s = [] → a = [] → ai = [] →
      comprehensivePlaceholderDetection text ai = fallbackCoAList) := by
  subst hd hs ha
  simp only [comprehensivePlaceholderDetection]
  refine ⟨?_, ?_, ?_, ?_, ?_⟩
  · intro h
    rw [if_pos h]
  · intro h
    rw [if_neg (fun hc => absurd hc.1 (by omega)), if_pos h]
  · intro hd' hs' ha'
    rw [hd', hs']
    rw [if_neg (by simp), if_neg (by simp),
      if_pos (List.length_pos.mpr ha')]
  · intro hd' hs' ha' hai'
    rw [hd', hs', ha']
    rw [if_neg (by simp), if_neg (by simp), if_neg (by simp),
      if_pos (List.length_pos.mpr hai')]
  · intro hd' hs' ha' hai'
    rw [hd', hs', ha', hai']
    decide

theorem c4_witness :
    comprehensivePlaceholderDetection "a: \x7b\x7d".data [] =
      validatePlaceholders ["a".data] :=
  (c4_selection_policy "a: \x7b\x7d".data [] ["a".data] [] []
    (by decide) (by decide) (by decide)).1 (by decide)

/-- C6. When the direct, structural, alternate, and AI strategies all return
zero placeholders, `comprehensivePlaceholderDetection` returns the hard-coded
fallback list of the sixteen canonical Certificate-of-Analysis fields, and
that list has length 16. -/
theorem c6_zero_yield_fallback (text : JStr) (ai : List JStr)
    (hd : extractDirectPlaceholders text = [])
    (hs : extractStructuralPlaceholders text = [])
    (ha : extractAlternativePlaceholders text = [])
    (hai : ai = []) :
    comprehensivePlaceholderDetection text ai = fallbackCoAList ∧
    (comprehensivePlaceholderDetection text ai).length = 16 := by
  subst hai
  simp only [comprehensivePlaceholderDetection]
  rw [hd, hs, ha]
  exact ⟨by decide, by decide⟩

theorem c6_witness :
    comprehensivePlaceholderDetection "zzz".data [] = fallbackCoAList ∧
    (comprehensivePlaceholderDetection "zzz".data []).length = 16 :=
  c6_zero_yield_fallback "zzz".data [] (by decide) (by decide) (by decide)
    rfl

/-- C9. The claimed synthetic-name scheme is wrong: a lone bare marker with no
label and no neighbouring lines is named `placeholder_1` by the direct
extractor (an overall marker count), not `field_1`; the `field_<n>` scheme
lives only in the final validation map and `n` there is the slot's list
position, not a running count of unnamed slots. -/
theorem c9_counterexample :
    comprehensivePlaceholderDetection "\x7b\x7d".data [] =
      [placeholderName 1] ∧
    placeholderName 1 ≠ syntheticFieldName 1 := by
  refine ⟨by decide, by decide⟩

/-- C9 (amended). Naming is total: every name in the Locator's output is
non-empty, since the final validation map replaces every empty or blank name
with the non-empty synthetic `field_<index+1>`. -/
theorem c9_naming_total (text : JStr) (ai : List JStr) (name : JStr)
    (h : name ∈ comprehensivePlaceholderDetection text ai) : name ≠ [] := by
  simp only [comprehensivePlaceholderDetection] at h
  exact validate_mem_ne_nil h

theorem c9_witness :
    "ph".data ∈ comprehensivePlaceholderDetection "pH \x7b\x7d".data [] ∧
    "ph".data ≠ ([] : JStr) :=
  ⟨by decide, c9_naming_total "pH \x7b\x7d".data [] "ph".data (by decide)⟩
